import Mathlib

/-!
Shallow embedding of the marian expression-graph / reverse-mode AD core
(src/graph/expression_graph.h, src/graph/node.h, src/graph/chainable.h,
src/graph/node_operators_unary.h).

Nodes live in a store indexed by allocation order (modelling the C++ heap
objects behind shared pointers); the graph holds bookkeeping lists of store
indices, mirroring the fields of class ExpressionGraph.  Machine floats are
modelled as rationals; the external tanh kernel is a parameter of the
interpreter.  Bodies that are not part of the given sources (node.cu:
Node::allocate, Node::free, Node::init_dependent, Node::set_zero_adjoint;
graph/node_operators.h leaf node classes; graph/parameters.h; the CUDA
Element/Add kernels; common/shape.h) are modelled from the spec and marked
as such in doc comments.
-/

namespace Marian

/-- Modelled from the spec: common/shape.h is not among the sources.  A Shape
is a fixed-rank (4-dimensional) integer extent descriptor. -/
structure Shape where
  d0 : Nat
  d1 : Nat
  d2 : Nat
  d3 : Nat
deriving DecidableEq

/-- Number of elements of a shape (product of the four extents). -/
def Shape.elements (s : Shape) : Nat := s.d0 * s.d1 * s.d2 * s.d3

/-- Operator kinds covered by the embedding: the three source (leaf) node
kinds (graph/node_operators.h, modelled from the spec) and the concrete
operator nodes taken from src/graph/node_operators_unary.h that have exact
rational semantics, plus tanh whose pointwise kernel is kept as a parameter
of the interpreter. -/
inductive NTy where
  | input
  | paramT
  | constant
  | tanh
  | square
  | neg
deriving DecidableEq

/-- Leaf (source) node kinds: zero children, value comes from an initializer. -/
def NTy.isLeaf : NTy → Bool
  | .input => true
  | .paramT => true
  | .constant => true
  | _ => false

/-- The stable type() string of each node kind (src: TanhNodeOp::type is
"tanh", SquareNodeOp::type is "square", NegNodeOp::type is "-"). -/
def NTy.typeName : NTy → String
  | .input => "input"
  | .paramT => "param"
  | .constant => "const"
  | .tanh => "tanh"
  | .square => "square"
  | .neg => "-"

/-- Hash values.  The boost hash arithmetic is an external dependency, so the
model represents a hash value as a structural fingerprint (a flat word list)
compared for equality exactly like the size_t of the source; the known
possibility of collisions of the real hash is an accepted idealization
(spec section 9). -/
abbrev HashV := List Nat

/-- Character codes of a string, the fingerprint contribution of a name or of
a type string. -/
def strFp (s : String) : List Nat :=
  s.data.map Char.toNat

/-- Structural hash of a composite node (NaryNodeOp::hash in
src/graph/node.h: combine the name, the type string, then every child hash;
the leading 1 separates composite from leaf fingerprints). -/
def naryHash (name ty : String) (childHashes : List HashV) : HashV :=
  1 :: (strFp name ++ (strFp ty ++ childHashes.foldr (fun h acc => h ++ acc) []))

/-- Modelled from the spec: leaf nodes (graph/node_operators.h is missing)
are never merged by CSE, so their hash is unique per constructed object (the
leading 0 separates leaf from composite fingerprints). -/
def leafHash (idx : Nat) : HashV := [0, idx]

/-- One graph node (class Node in src/graph/node.h): identity fields fixed at
construction plus the mutable value/gradient buffers and the edge counter. -/
structure GNode where
  ty : NTy := .input
  id : Nat := 0
  name : String := "none"
  children : List Nat := []
  trainable : Bool := true
  shape : Shape := ⟨1, 1, 1, 1⟩
  edges : Nat := 0
  hashv : HashV := []
  initVal : List ℚ := []
  val : Option (List ℚ) := none
  adj : Option (List ℚ) := none
  freed : Bool := false
deriving DecidableEq

instance : Inhabited GNode := ⟨{}⟩

/-- The store of all constructed node objects, indexed by construction order
(modelling heap objects reachable through shared pointers). -/
abbrev Store := Nat → GNode

/-- Pointwise update of one slot of the store. -/
def supd (st : Store) (i : Nat) (f : GNode → GNode) : Store :=
  fun j => if j = i then f (st j) else st j

/-- Raising of the edge counter of a node by k. -/
def addE (k : Nat) (nd : GNode) : GNode := { nd with edges := nd.edges + k }

/-- Lowering of the edge counter of a node by k (truncated like the size_t
counter, which the drivers never drive below zero). -/
def subE (k : Nat) (nd : GNode) : GNode := { nd with edges := nd.edges - k }

/-- Association lookup, first match wins (std::map / std::unordered_map find). -/
def klookup {α β : Type} [DecidableEq α] : List (α × β) → α → Option β
  | [], _ => none
  | (k, v) :: t, x => if k = x then some v else klookup t x

/-- Association lookup with a default (std::map subscript read). -/
def klookupD {α β : Type} [DecidableEq α] (l : List (α × β)) (x : α) (d : β) : β :=
  (klookup l x).getD d

/-- The expression graph (class ExpressionGraph): bookkeeping lists hold
store indices; count is the id counter, next is the store allocation
counter (the number of node objects ever constructed). -/
@[ext]
structure Graph where
  count : Nat := 0
  nodes : List Nat := []
  tapes : List (List Nat) := []
  tapeMap : List (Nat × Nat) := []
  named : List (String × Nat) := []
  topNodes : List Nat := []
  params : List (String × Nat) := []
  hashMap : List (HashV × Nat) := []
  next : Nat := 0
  store : Store := fun _ => {}

/-- A freshly constructed graph. -/
def emptyGraph : Graph := {}

/-- Insertion into the top-node set (std::unordered_set insert). -/
def topInsert (l : List Nat) (n : Nat) : List Nat :=
  if n ∈ l then l else l ++ [n]

/-- Placing a node into its tape level, resizing the level list when needed
(ExpressionGraph::add, the tapes_ update). -/
def tapesInsert (ts : List (List Nat)) (group n : Nat) : List (List Nat) :=
  let ts2 := ts ++ List.replicate (group + 1 - ts.length) []
  ts2.set group ((ts2.getD group []) ++ [n])

/-- The tape level computed by the per-child loop of ExpressionGraph::add:
one more than the maximal tape level of a child. -/
def groupOf (tm : List (Nat × Nat)) (cs : List Nat) : Nat :=
  cs.foldl (fun grp c => max grp (klookupD tm c 0 + 1)) 0

/-- The edge-count increments of the per-child loop of ExpressionGraph::add:
raise the count of the child and of the new node by 2 per connecting edge.
In the source this loop also computes the tape level; the two effects are
independent, so they are split here into groupOf and bumpEdges. -/
def bumpEdges (st : Store) (n : Nat) (cs : List Nat) : Store :=
  cs.foldl
    (fun st c =>
      supd (supd st c (fun nd => { nd with edges := nd.edges + 2 })) n
        (fun nd => { nd with edges := nd.edges + 2 }))
    st

/-- ExpressionGraph::add (src/graph/expression_graph.h lines 386-411): the
single insertion point.  On a hash hit the existing node is returned and the
graph is untouched; otherwise the node gets the next id, edge counts are
raised, and the node is recorded in the hash map, the tape levels, the node
list and the top-node set. -/
def Graph.add (g : Graph) (n : Nat) : Graph × Nat :=
  match klookup g.hashMap (g.store n).hashv with
  | some m => (g, m)
  | none =>
    let group := groupOf g.tapeMap (g.store n).children
    (⟨g.count + 1,
      g.nodes ++ [n],
      tapesInsert g.tapes group n,
      (n, group) :: g.tapeMap,
      g.named,
      topInsert g.topNodes n,
      g.params,
      ((g.store n).hashv, n) :: g.hashMap,
      g.next,
      bumpEdges (supd g.store n (fun nd => { nd with id := g.count })) n
        (g.store n).children⟩, n)

/-- Construction of a composite node (NaryNodeOp constructor in
src/graph/node.h: trainable is the disjunction over the children, the hash
combines name, type and child hashes) followed by
remove_children_from_top_nodes and registration through add. -/
def Graph.mkNary (g : Graph) (ty : NTy) (cs : List Nat) (sh : Shape) : Graph × Nat :=
  let nd : GNode :=
    { ty := ty, children := cs,
      trainable := cs.any (fun c => (g.store c).trainable),
      shape := sh,
      hashv := naryHash "none" ty.typeName (cs.map (fun c => (g.store c).hashv)) }
  Graph.add
    ⟨g.count, g.nodes, g.tapes, g.tapeMap, g.named,
     g.topNodes.filter (fun t => t ∉ cs), g.params, g.hashMap,
     g.next + 1, supd g.store g.next (fun _ => nd)⟩
    g.next

/-- Broadcast shape of TanhNodeOp::newShape (the componentwise maximum; the
source raises a fatal shape error when extents are incompatible, which only
prevents such graphs from being built). -/
def broadcastShape : List Shape → Shape
  | [] => ⟨1, 1, 1, 1⟩
  | s :: rest =>
    rest.foldl (fun a b => ⟨max a.d0 b.d0, max a.d1 b.d1, max a.d2 b.d2, max a.d3 b.d3⟩) s

/-- TanhNodeOp construction (src/graph/node_operators_unary.h lines 58-74). -/
def Graph.mkTanh (g : Graph) (cs : List Nat) : Graph × Nat :=
  g.mkNary .tanh cs (broadcastShape (cs.map (fun c => (g.store c).shape)))

/-- UnaryNodeOp construction (shape is the shape of the operand). -/
def Graph.mkUnary (g : Graph) (ty : NTy) (c : Nat) : Graph × Nat :=
  g.mkNary ty [c] (g.store c).shape

/-- Modelled from the spec: leaf construction (InputNode, ParamNode,
ConstantNode of graph/node_operators.h are not among the sources).  A leaf
carries a trainability flag and initializer data and is registered through
add like every node; its hash is unique per object so it is never merged by
hash-based CSE. -/
def Graph.mkLeaf (g : Graph) (ty : NTy) (sh : Shape) (iv : List ℚ) (tr : Bool) : Graph × Nat :=
  let nd : GNode :=
    { ty := ty, shape := sh, initVal := iv, trainable := tr, hashv := leafHash g.next }
  Graph.add
    ⟨g.count, g.nodes, g.tapes, g.tapeMap, g.named, g.topNodes, g.params, g.hashMap,
     g.next + 1, supd g.store g.next (fun _ => nd)⟩
    g.next

/-- ExpressionGraph::get: look the name up in the parameter table first, then
in the named-node table. -/
def Graph.get (g : Graph) (name : String) : Option Nat :=
  match klookup g.params name with
  | some e => some e
  | none => klookup g.named name

/-- ExpressionGraph::param (src/graph/expression_graph.h lines 256-283): an
existing parameter of that name is re-added to the tape and returned; a name
held by a non-parameter node is a fatal collision; otherwise a fresh
parameter node is created, named and recorded in the parameter table. -/
def Graph.param (g : Graph) (name : String) (sh : Shape) (iv : List ℚ) :
    Except String (Graph × Nat) :=
  match klookup g.params name with
  | some p =>
    let g2 := (g.add p).1
    .ok (g2, p)
  | none =>
    if (g.get name).isSome then
      .error "Non-parameter with name already exists"
    else
      let pr := g.mkLeaf .paramT sh iv true
      let g2 := pr.1
      .ok (⟨g2.count, g2.nodes, g2.tapes, g2.tapeMap, g2.named, g2.topNodes,
            (name, pr.2) :: g2.params, g2.hashMap, g2.next,
            supd g2.store pr.2 (fun nd => { nd with name := name })⟩, pr.2)

/-- ExpressionGraph::add_named_node: a fatal error when the name is taken,
otherwise record the name (the throw condition params_.get(name) or
get(name) is equivalent to get(name) being set, since get checks the
parameter table first). -/
def Graph.addNamed (g : Graph) (name : String) (v : Nat) : Graph :=
  { g with named := (name, v) :: g.named }

/-- ExpressionGraph::clear: reset everything apart from the parameters. -/
def Graph.clear (g : Graph) : Graph :=
  { g with count := 0, nodes := [], tapes := [], tapeMap := [],
           named := [], topNodes := [], hashMap := [] }

/-- Elementwise sum of a family of buffers (the repeated addition inside the
tanh forward kernels). -/
def sumVals : List (List ℚ) → List ℚ
  | [] => []
  | [v] => v
  | v :: rest => List.zipWith (· + ·) v (sumVals rest)

/-- Decrement of the edge counter by one (Node::decreaseEdges; the counter is
a size_t, only ever decremented after construction, and the drivers never
drive it below zero, so natural truncated subtraction is exact here). -/
def edec (nd : GNode) : GNode := { nd with edges := nd.edges - 1 }

/-- The per-child edge release of the forward and backward drivers: for every
child, one decrement on the node itself and one on the child. -/
def edgeDecAll (st : Store) (v : Nat) (cs : List Nat) : Store :=
  cs.foldl (fun st c => supd (supd st v edec) c edec) st

/-- Forward ops of the embedded node kinds.  tanh: value is tanh of the
elementwise sum of the child values (TanhNodeOp::forwardOps, all arities);
square: elementwise product of the child with itself; neg: elementwise
negation.  The pointwise tanh kernel is the parameter th; the Element kernel
(assignment) is modelled from the spec. -/
def fwdOps (th : ℚ → ℚ) (st : Store) (v : Nat) : Store :=
  let nd := st v
  match nd.ty with
  | .tanh =>
    supd st v (fun n =>
      { n with val := some ((sumVals (nd.children.map (fun c => (st c).val.getD []))).map th) })
  | .square =>
    supd st v (fun n =>
      { n with val := some (((st (nd.children.headD 0)).val.getD []).map (fun x => x * x)) })
  | .neg =>
    supd st v (fun n =>
      { n with val := some (((st (nd.children.headD 0)).val.getD []).map (fun x => -x)) })
  | _ => st

/-- One node of the forward pass (the loop body of ExpressionGraph::forward,
src/graph/expression_graph.h lines 119-142): allocate the value buffer
(Node::allocate is modelled from the spec: acquire storage when absent), run
init (Node::init is a no-op in the source; the leaf override writing the
initializer is modelled from the spec), run the forward ops, then release
one edge slot on the node and on each child. -/
def fwdNode (th : ℚ → ℚ) (st : Store) (v : Nat) : Store :=
  let st1 := supd st v (fun nd =>
    if nd.val.isNone then { nd with val := some (List.replicate nd.shape.elements 0) } else nd)
  let st2 := supd st1 v (fun nd =>
    if nd.ty.isLeaf then { nd with val := some nd.initVal } else nd)
  let st3 := fwdOps th st2 v
  edgeDecAll st3 v (st3 v).children

/-- ExpressionGraph::forward from position 0: run every node of the tape in
insertion order. -/
def Graph.forwardAll (th : ℚ → ℚ) (g : Graph) : Graph :=
  { g with store := g.nodes.foldl (fwdNode th) g.store }

/-- Accumulation of a gradient contribution into the adjoint of a child
node.  Modelled from the spec: the Add kernel accumulates into (does not
overwrite) the target buffer. -/
def addGrad (st : Store) (c : Nat) (contrib : List ℚ) : Store :=
  supd st c (fun nd => { nd with adj := some (List.zipWith (· + ·) (nd.adj.getD []) contrib) })

/-- Backward ops (src/graph/node_operators_unary.h) run through
Node::runBackward (src/graph/node.h lines 55-60), which pairs the ops with
the children by position and runs the i-th op only when the i-th child is
trainable.  tanh: one op per child adding adj times (1 - val * val); square:
one op adding 2 * child-val * adj; neg: one op adding the negated adjoint. -/
def runBwdOps (st : Store) (v : Nat) : Store :=
  let nd := st v
  let a := nd.adj.getD []
  match nd.ty with
  | .tanh =>
    let w := nd.val.getD []
    let contrib := List.zipWith (fun x y => x * (1 - y * y)) a w
    nd.children.foldl (fun st c => if (st c).trainable then addGrad st c contrib else st) st
  | .square =>
    let c := nd.children.headD 0
    if (st c).trainable then
      addGrad st c (List.zipWith (fun x y => 2 * x * y) ((st c).val.getD []) a)
    else st
  | .neg =>
    let c := nd.children.headD 0
    if (st c).trainable then addGrad st c (a.map (fun x => -x)) else st
  | _ => st

/-- Zeroing of the adjoints of the trainable children (the first loop of the
backward body).  Node::set_zero_adjoint is modelled from the spec: it zeroes
the gradient buffer only when it has not been touched yet this pass
(allocate-if-absent). -/
def zeroKids (st : Store) (cs : List Nat) : Store :=
  cs.foldl
    (fun st c =>
      if (st c).trainable then
        supd st c (fun nd =>
          if nd.adj.isNone then { nd with adj := some (List.replicate nd.shape.elements 0) } else nd)
      else st)
    st

/-- One node of the backward pass (the loop body of
ExpressionGraph::backward, src/graph/expression_graph.h lines 166-190): zero
the adjoint of every trainable child, run the backward ops when the node is
trainable, release one edge slot per child on both endpoints, and free the
storage of the node when its edge count is zero and it carries no
user-visible name.  The Bool reports whether the node was freed. -/
def backNode (st : Store) (v : Nat) : Store × Bool :=
  let st1 := zeroKids st (st v).children
  let st2 := if (st1 v).trainable then runBwdOps st1 v else st1
  let st3 := edgeDecAll st2 v (st2 v).children
  if (st3 v).edges = 0 && (st3 v).name == "none" then
    (supd st3 v (fun nd => { nd with val := none, adj := none, freed := true }), true)
  else (st3, false)

/-- The reverse traversal of the backward pass, also collecting the list of
freed nodes. -/
def backLoop : List Nat → Store → Store × List Nat
  | [], st => (st, [])
  | v :: rest, st =>
    let p := backNode st v
    let q := backLoop rest p.1
    (q.1, if p.2 then v :: q.2 else q.2)

/-- Zeroing of all parameter gradients before the pass
(params_.allocateBackward and params_.set_zero_adjoint; the Parameters class
is modelled from the spec: every parameter gradient is zeroed). -/
def paramsZero (ps : List (String × Nat)) (st : Store) : Store :=
  ps.foldl
    (fun st q => supd st q.2 (fun nd => { nd with adj := some (List.replicate nd.shape.elements 0) }))
    st

/-- Seeding of the top-node gradients (Node::init_dependent is modelled from
the spec: seed the gradient with ones when the buffer is absent). -/
def seedTops (ts : List Nat) (st : Store) : Store :=
  ts.foldl
    (fun st v => supd st v (fun nd =>
      if nd.adj.isNone then { nd with adj := some (List.replicate nd.shape.elements 1) } else nd))
    st

/-- Message of the well-formedness check at the head of
ExpressionGraph::backward. -/
def wfMsg : String := "There are more than one top most node for backward step"

/-- ExpressionGraph::backward (src/graph/expression_graph.h lines 156-191):
fatal when more than one top node exists; otherwise zero the parameter
gradients, seed the top node, and traverse the tape in reverse insertion
order.  Returns the resulting graph and the list of freed nodes. -/
def Graph.backward (g : Graph) : Except String (Graph × List Nat) :=
  if 1 < g.topNodes.length then .error wfMsg
  else
    let st1 := paramsZero g.params g.store
    let st2 := seedTops g.topNodes st1
    let p := backLoop g.nodes.reverse st2
    .ok ({ g with store := p.1 }, p.2)

/-- ExpressionGraph::backprop: forward then backward. -/
def Graph.backprop (th : ℚ → ℚ) (g : Graph) : Except String (Graph × List Nat) :=
  (g.forwardAll th).backward

/-- One entry of a saved model file: the declared dimension list and the
flat data (the cnpy npz array contract). -/
structure NpzArr where
  dims : List Nat
  data : List ℚ
deriving DecidableEq

/-- ExpressionGraph::save (src/graph/expression_graph.h lines 469-494): one
array per parameter; a parameter whose first extent is 1 is written as a
1-dimensional array of length shape[1], every other parameter as a
2-dimensional (shape[0], shape[1]) array; the data is the full value
buffer. -/
def Graph.save (g : Graph) : List (String × NpzArr) :=
  g.params.map (fun q =>
    let nd := g.store q.2
    let v := nd.val.getD []
    if nd.shape.d0 = 1 then (q.1, ⟨[nd.shape.d1], v⟩)
    else (q.1, ⟨[nd.shape.d0, nd.shape.d1], v⟩))

/-- ExpressionGraph::load (src/graph/expression_graph.h lines 444-467): for
every array of the file, rebuild the shape (a 2-dimensional array gives
extents 0 and 1; a 1-dimensional array of length N gives (1, N); the other
extents keep their default 1) and create the parameter with the array data
as initializer. -/
def Graph.load (g : Graph) (file : List (String × NpzArr)) : Except String Graph :=
  match file with
  | [] => .ok g
  | (name, arr) :: rest =>
    let sh : Shape :=
      if arr.dims.length = 2 then ⟨arr.dims.getD 0 1, arr.dims.getD 1 1, 1, 1⟩
      else if arr.dims.length = 1 then ⟨1, arr.dims.getD 0 1, 1, 1⟩
      else ⟨1, 1, 1, 1⟩
    match g.param name sh arr.data with
    | .ok (g2, _) => g2.load rest
    | .error e => .error e

/-- Total multiplicity of a node as a child across the whole node list (the
number of parent-to-child edges pointing at it). -/
def parentCount (g : Graph) (v : Nat) : Nat :=
  (g.nodes.map (fun u => (g.store u).children.count v)).sum

/-- Graphs reachable through the public construction entry points of
ExpressionGraph within one generation: leaf constructors, operator
constructors over live children, the parameter path, and named-node
registration. -/
inductive Built : Graph → Prop where
  | empty : Built emptyGraph
  | leaf {g : Graph} (ty : NTy) (sh : Shape) (iv : List ℚ) (tr : Bool) :
      ty.isLeaf = true → Built g → Built (g.mkLeaf ty sh iv tr).1
  | tanh {g : Graph} {cs : List Nat} :
      Built g → cs ≠ [] → (∀ c ∈ cs, c ∈ g.nodes) → Built (g.mkTanh cs).1
  | unary {g : Graph} {c : Nat} (ty : NTy) :
      Built g → (ty = .square ∨ ty = .neg) → c ∈ g.nodes → Built (g.mkUnary ty c).1
  | paramStep {g g' : Graph} {p : Nat} (nm : String) (sh : Shape) (iv : List ℚ) :
      Built g → g.param nm sh iv = .ok (g', p) → Built g'
  | namedStep {g : Graph} {v : Nat} (nm : String) :
      Built g → g.get nm = none → v ∈ g.nodes → Built (g.addNamed nm v)

/-- Construction-phase invariant of graphs reachable through the public
construction entry points: store indices of live nodes are valid and
insertion-ordered, ids grow with insertion order and strictly dominate the
ids of the children, the edge count of every node is twice its child count
plus twice its multiplicity as a child, hash-table entries are fingerprints
of the two families, the parameter table holds trainable leaf nodes found
by their own hash, and no gradient work has happened yet. -/
structure Inv (g : Graph) : Prop where
  mem_lt_next : ∀ v ∈ g.nodes, v < g.next
  sorted_mem : g.nodes.Pairwise (· < ·)
  ids_lt : ∀ v ∈ g.nodes, (g.store v).id < g.count
  sorted_ids : g.nodes.Pairwise (fun a b => (g.store a).id < (g.store b).id)
  child_mem : ∀ v ∈ g.nodes, ∀ c ∈ (g.store v).children, c ∈ g.nodes
  child_lt : ∀ v ∈ g.nodes, ∀ c ∈ (g.store v).children, c < v
  child_id_lt : ∀ v ∈ g.nodes, ∀ c ∈ (g.store v).children, (g.store c).id < (g.store v).id
  edges_eq : ∀ v ∈ g.nodes,
    (g.store v).edges = 2 * (g.store v).children.length + 2 * parentCount g v
  hash_entries : ∀ p ∈ g.hashMap, (p.1 = leafHash p.2 ∧ p.2 < g.next) ∨ p.1.head? = some 1
  params_node : ∀ q ∈ g.params,
    q.2 ∈ g.nodes ∧ (g.store q.2).trainable = true ∧ (g.store q.2).hashv = leafHash q.2
  params_hash : ∀ q ∈ g.params, klookup g.hashMap ((g.store q.2).hashv) = some q.2
  params_keys : (g.params.map Prod.fst).Nodup
  adj_none : ∀ v ∈ g.nodes, (g.store v).adj = none
  freed_false : ∀ v ∈ g.nodes, (g.store v).freed = false

/-!
Concrete graph for the gradient-accumulation scenario of the spec: a
parameter w consumed by two distinct parents, square(w) and neg(w), joined
by the single top node tanh(square(w) + neg(w)).  The stage definitions
below record the graph and store states along construction, the forward
pass and the backward pass, so that each driver step can be checked against
an explicit state.
-/

/-- The two-parent graph y = tanh(square(w) + neg(w)) over parameter w. -/
def c1g (x0 : ℚ) : Graph :=
  match emptyGraph.param "w" ⟨1, 1, 1, 1⟩ [x0] with
  | .ok (g, _) => (((g.mkUnary .square 0).1.mkUnary .neg 0).1.mkTanh [1, 2]).1
  | .error _ => emptyGraph

/-- Fingerprint of the parameter node of c1g. -/
def hP : HashV := [0, 0]

/-- Fingerprint of the square node of c1g. -/
def hSq : HashV := [1, 110, 111, 110, 101, 115, 113, 117, 97, 114, 101, 0, 0]

/-- Fingerprint of the neg node of c1g. -/
def hNg : HashV := [1, 110, 111, 110, 101, 45, 0, 0]

/-- Fingerprint of the tanh node of c1g. -/
def hTh : HashV := [1, 110, 111, 110, 101, 116, 97, 110, 104, 1, 110, 111, 110, 101, 115, 113,
  117, 97, 114, 101, 0, 0, 1, 110, 111, 110, 101, 45, 0, 0]

/-- The parameter node object of c1g, freshly constructed. -/
def ndP (x0 : ℚ) : GNode :=
  { ty := .paramT, shape := ⟨1, 1, 1, 1⟩, initVal := [x0], trainable := true, hashv := hP }

/-- The square node object of c1g, freshly constructed. -/
def ndSq : GNode :=
  { ty := .square, children := [0], trainable := true, shape := ⟨1, 1, 1, 1⟩, hashv := hSq }

/-- The neg node object of c1g, freshly constructed. -/
def ndNg : GNode :=
  { ty := .neg, children := [0], trainable := true, shape := ⟨1, 1, 1, 1⟩, hashv := hNg }

/-- The tanh node object of c1g, freshly constructed. -/
def ndTh : GNode :=
  { ty := .tanh, children := [1, 2], trainable := true, shape := ⟨1, 1, 1, 1⟩, hashv := hTh }

/-- Stage 0 of the construction of c1g: after creating parameter w. -/
def G0 (x0 : ℚ) : Graph :=
  ⟨1, [0], [[0]], [(0, 0)], [], [0], [("w", 0)], [(hP, 0)], 1,
   supd (supd (supd (fun _ => {}) 0 (fun _ => ndP x0)) 0 (fun nd => { nd with id := 0 }))
     0 (fun nd => { nd with name := "w" })⟩

/-- Stage 1 of the construction of c1g: after adding square(w). -/
def G1 (x0 : ℚ) : Graph :=
  ⟨2, [0, 1], [[0], [1]], [(1, 1), (0, 0)], [], [1], [("w", 0)], [(hSq, 1), (hP, 0)], 2,
   bumpEdges (supd (supd (G0 x0).store 1 (fun _ => ndSq)) 1 (fun nd => { nd with id := 1 }))
     1 [0]⟩

/-- Stage 2 of the construction of c1g: after adding neg(w). -/
def G2 (x0 : ℚ) : Graph :=
  ⟨3, [0, 1, 2], [[0], [1, 2]], [(2, 1), (1, 1), (0, 0)], [], [1, 2], [("w", 0)],
   [(hNg, 2), (hSq, 1), (hP, 0)], 3,
   bumpEdges (supd (supd (G1 x0).store 2 (fun _ => ndNg)) 2 (fun nd => { nd with id := 2 }))
     2 [0]⟩

/-- Stage 3 of the construction of c1g: after adding the top tanh node. -/
def G3 (x0 : ℚ) : Graph :=
  ⟨4, [0, 1, 2, 3], [[0], [1, 2], [3]], [(3, 2), (2, 1), (1, 1), (0, 0)], [], [3], [("w", 0)],
   [(hTh, 3), (hNg, 2), (hSq, 1), (hP, 0)], 4,
   bumpEdges (supd (supd (G2 x0).store 3 (fun _ => ndTh)) 3 (fun nd => { nd with id := 3 }))
     3 [1, 2]⟩

/-- The parameter slot of c1g with edge count e, value v and adjoint a. -/
def slotP (x0 : ℚ) (e : Nat) (v a : Option (List ℚ)) : GNode :=
  { ty := .paramT, name := "w", children := [], trainable := true, shape := ⟨1, 1, 1, 1⟩,
    edges := e, hashv := hP, initVal := [x0], val := v, adj := a }

/-- An operator slot of c1g with the given bookkeeping state. -/
def slotOp (ty : NTy) (idv : Nat) (cs : List Nat) (h : HashV) (e : Nat)
    (v a : Option (List ℚ)) (fr : Bool) : GNode :=
  { ty := ty, id := idv, children := cs, trainable := true, shape := ⟨1, 1, 1, 1⟩,
    edges := e, hashv := h, val := v, adj := a, freed := fr }

/-- A four-slot store of c1g given the four node states. -/
def st4 (n0 n1 n2 n3 : GNode) : Store :=
  fun j => if j = 0 then n0 else if j = 1 then n1 else if j = 2 then n2 else
    if j = 3 then n3 else {}

/-- Flat form of the c1g store after construction. -/
def G3f (x0 : ℚ) : Store :=
  st4 (slotP x0 4 none none)
      (slotOp .square 1 [0] hSq 4 none none false)
      (slotOp .neg 2 [0] hNg 4 none none false)
      (slotOp .tanh 3 [1, 2] hTh 4 none none false)

/-- The c1g graph after construction, with a flat store. -/
def Gc (x0 : ℚ) : Graph :=
  ⟨4, [0, 1, 2, 3], [[0], [1, 2], [3]], [(3, 2), (2, 1), (1, 1), (0, 0)], [], [3], [("w", 0)],
   [(hTh, 3), (hNg, 2), (hSq, 1), (hP, 0)], 4, G3f x0⟩

/-- Flat store after the forward step of node 0 of c1g. -/
def SF0f (x0 : ℚ) : Store :=
  st4 (slotP x0 4 (some [x0]) none)
      (slotOp .square 1 [0] hSq 4 none none false)
      (slotOp .neg 2 [0] hNg 4 none none false)
      (slotOp .tanh 3 [1, 2] hTh 4 none none false)

/-- Flat store after the forward step of node 1 of c1g. -/
def SF1f (x0 : ℚ) : Store :=
  st4 (slotP x0 3 (some [x0]) none)
      (slotOp .square 1 [0] hSq 3 (some [x0 * x0]) none false)
      (slotOp .neg 2 [0] hNg 4 none none false)
      (slotOp .tanh 3 [1, 2] hTh 4 none none false)

/-- Flat store after the forward step of node 2 of c1g. -/
def SF2f (x0 : ℚ) : Store :=
  st4 (slotP x0 2 (some [x0]) none)
      (slotOp .square 1 [0] hSq 3 (some [x0 * x0]) none false)
      (slotOp .neg 2 [0] hNg 3 (some [-x0]) none false)
      (slotOp .tanh 3 [1, 2] hTh 4 none none false)

/-- Flat store after the forward pass of c1g. -/
def SF3f (th : ℚ → ℚ) (x0 : ℚ) : Store :=
  st4 (slotP x0 2 (some [x0]) none)
      (slotOp .square 1 [0] hSq 2 (some [x0 * x0]) none false)
      (slotOp .neg 2 [0] hNg 2 (some [-x0]) none false)
      (slotOp .tanh 3 [1, 2] hTh 2 (some [th (x0 * x0 + -x0)]) none false)

/-- The c1g graph after the forward pass. -/
def G4c (th : ℚ → ℚ) (x0 : ℚ) : Graph :=
  ⟨4, [0, 1, 2, 3], [[0], [1, 2], [3]], [(3, 2), (2, 1), (1, 1), (0, 0)], [], [3], [("w", 0)],
   [(hTh, 3), (hNg, 2), (hSq, 1), (hP, 0)], 4, SF3f th x0⟩

/-- Flat store after zeroing the parameter gradients and seeding the top
node of c1g. -/
def SBif (th : ℚ → ℚ) (x0 : ℚ) : Store :=
  st4 (slotP x0 2 (some [x0]) (some [0]))
      (slotOp .square 1 [0] hSq 2 (some [x0 * x0]) none false)
      (slotOp .neg 2 [0] hNg 2 (some [-x0]) none false)
      (slotOp .tanh 3 [1, 2] hTh 2 (some [th (x0 * x0 + -x0)]) (some [1]) false)

/-- Flat store after the backward step of the tanh node of c1g: both parents
of w received the seeded adjoint times the local tanh derivative, and the
exhausted unnamed tanh node was freed. -/
def SB3f (th : ℚ → ℚ) (x0 : ℚ) : Store :=
  st4 (slotP x0 2 (some [x0]) (some [0]))
      (slotOp .square 1 [0] hSq 1 (some [x0 * x0])
        (some [0 + 1 * (1 - th (x0 * x0 + -x0) * th (x0 * x0 + -x0))]) false)
      (slotOp .neg 2 [0] hNg 1 (some [-x0])
        (some [0 + 1 * (1 - th (x0 * x0 + -x0) * th (x0 * x0 + -x0))]) false)
      (slotOp .tanh 3 [1, 2] hTh 0 none none true)

/-- Flat store after the backward step of the neg node of c1g: the neg
parent accumulated its contribution into the gradient of w. -/
def SB2f (th : ℚ → ℚ) (x0 : ℚ) : Store :=
  st4 (slotP x0 1 (some [x0])
        (some [0 + -(0 + 1 * (1 - th (x0 * x0 + -x0) * th (x0 * x0 + -x0)))]))
      (slotOp .square 1 [0] hSq 1 (some [x0 * x0])
        (some [0 + 1 * (1 - th (x0 * x0 + -x0) * th (x0 * x0 + -x0))]) false)
      (slotOp .neg 2 [0] hNg 0 none none true)
      (slotOp .tanh 3 [1, 2] hTh 0 none none true)

/-- Flat store after the backward step of the square node of c1g: the square
parent accumulated its contribution on top of the neg contribution. -/
def SB1f (th : ℚ → ℚ) (x0 : ℚ) : Store :=
  st4 (slotP x0 0 (some [x0])
        (some [(0 + -(0 + 1 * (1 - th (x0 * x0 + -x0) * th (x0 * x0 + -x0)))) +
               2 * x0 * (0 + 1 * (1 - th (x0 * x0 + -x0) * th (x0 * x0 + -x0)))]))
      (slotOp .square 1 [0] hSq 0 none none true)
      (slotOp .neg 2 [0] hNg 0 none none true)
      (slotOp .tanh 3 [1, 2] hTh 0 none none true)

/-- The c1g graph after one full backprop generation. -/
def G5c (th : ℚ → ℚ) (x0 : ℚ) : Graph :=
  ⟨4, [0, 1, 2, 3], [[0], [1, 2], [3]], [(3, 2), (2, 1), (1, 1), (0, 0)], [], [3], [("w", 0)],
   [(hTh, 3), (hNg, 2), (hSq, 1), (hP, 0)], 4, SB1f th x0⟩

/-- The two stages of the backward loop body of ExpressionGraph::backward,
named so the step can be analyzed piecewise: bgrad is the store after the
gradient work of one visit (zero the adjoints of the trainable children,
then run the backward ops when the node is trainable). -/
def bgrad (st : Store) (v : Nat) : Store :=
  let st1 := zeroKids st (st v).children
  if (st1 v).trainable then runBwdOps st1 v else st1

/-- The store after the edge release of one backward visit. -/
def bdec (st : Store) (v : Nat) : Store :=
  edgeDecAll (bgrad st v) v (bgrad st v v).children

/-- The free condition of one backward visit: the visited node has no edge
slot left and carries no user-visible name. -/
def bfire (st : Store) (v : Nat) : Bool :=
  (bdec st v v).edges = 0 && (bdec st v v).name == "none"

/-- A store transformation that at every slot changes at most the adjoint,
and changes nothing at the slots whose node is not trainable (the shape of
the gradient-writing steps of the backward driver). -/
def adjW (st st2 : Store) : Prop :=
  ∀ j, (∃ a, st2 j = { st j with adj := a }) ∧ ((st j).trainable = false → st2 j = st j)

/-- A single non-trainable constant leaf (claim C10 scenario). -/
def gK1 : Graph := (emptyGraph.mkLeaf .constant ⟨1, 1, 1, 1⟩ [5] false).1

/-- The chain square over a non-trainable constant: the unique top node, the
square, is itself non-trainable. -/
def gK2 : Graph := (gK1.mkUnary .square 0).1

/-- The two slots of gK2 after a backward pass alone: the adjoint seeded by
init_dependent survives on the non-trainable top node. -/
def gK2rStore : Store := fun j =>
  if j = 0 then
    { ty := .constant, id := 0, children := [], trainable := false, shape := ⟨1, 1, 1, 1⟩,
      edges := 1, hashv := [0, 0], initVal := [5], val := none, adj := none, freed := false }
  else if j = 1 then
    { ty := .square, id := 1, children := [0], trainable := false, shape := ⟨1, 1, 1, 1⟩,
      edges := 1, hashv := hSq, initVal := [], val := none, adj := some [1], freed := false }
  else {}

/-- The graph gK2 after the backward pass. -/
def gK2r : Graph :=
  ⟨2, [0, 1], [[0], [1]], [(1, 1), (0, 0)], [], [1], [], [(hSq, 1), ([0, 0], 0)], 2, gK2rStore⟩

/-- A graph holding one parameter with a non-trivial third extent (claim C7
scenario). -/
def g74 : Graph :=
  match emptyGraph.param "w" ⟨1, 2, 3, 1⟩ [0, 0, 0, 0, 0, 0] with
  | .ok p => p.1
  | .error _ => emptyGraph

/-! Stage lemmas for the c1g pipeline. -/

theorem c1_step0 (x0 : ℚ) : emptyGraph.param "w" ⟨1, 1, 1, 1⟩ [x0] = .ok (G0 x0, 0) := rfl

theorem c1_step1 (x0 : ℚ) : (G0 x0).mkUnary .square 0 = (G1 x0, 1) := rfl

theorem c1_step2 (x0 : ℚ) : (G1 x0).mkUnary .neg 0 = (G2 x0, 2) := rfl

theorem c1_step3 (x0 : ℚ) : (G2 x0).mkTanh [1, 2] = (G3 x0, 3) := rfl

theorem c1_flatten (x0 : ℚ) : G3 x0 = Gc x0 := by
  refine Graph.ext rfl rfl rfl rfl rfl rfl rfl rfl rfl ?_
  funext j
  rcases j with _ | _ | _ | _ | j <;> rfl

theorem c1g_eq (x0 : ℚ) : c1g x0 = Gc x0 := by
  unfold c1g
  rw [c1_step0]
  change ((((G0 x0).mkUnary .square 0).1.mkUnary .neg 0).1.mkTanh [1, 2]).1 = Gc x0
  rw [c1_step1]
  change (((G1 x0).mkUnary .neg 0).1.mkTanh [1, 2]).1 = Gc x0
  rw [c1_step2]
  change ((G2 x0).mkTanh [1, 2]).1 = Gc x0
  rw [c1_step3, c1_flatten]

theorem c1_fwd0 (th : ℚ → ℚ) (x0 : ℚ) : fwdNode th (G3f x0) 0 = SF0f x0 := by
  funext j
  rcases j with _ | _ | _ | _ | j <;> rfl

theorem c1_fwd1 (th : ℚ → ℚ) (x0 : ℚ) : fwdNode th (SF0f x0) 1 = SF1f x0 := by
  funext j
  rcases j with _ | _ | _ | _ | j <;> rfl

theorem c1_fwd2 (th : ℚ → ℚ) (x0 : ℚ) : fwdNode th (SF1f x0) 2 = SF2f x0 := by
  funext j
  rcases j with _ | _ | _ | _ | j <;> rfl

theorem c1_fwd3 (th : ℚ → ℚ) (x0 : ℚ) : fwdNode th (SF2f x0) 3 = SF3f th x0 := by
  funext j
  rcases j with _ | _ | _ | _ | j <;> rfl

theorem c1_forward (th : ℚ → ℚ) (x0 : ℚ) : (Gc x0).forwardAll th = G4c th x0 := by
  show (⟨(Gc x0).count, (Gc x0).nodes, (Gc x0).tapes, (Gc x0).tapeMap, (Gc x0).named,
        (Gc x0).topNodes, (Gc x0).params, (Gc x0).hashMap, (Gc x0).next,
        (Gc x0).nodes.foldl (fwdNode th) (Gc x0).store⟩ : Graph) = G4c th x0
  rw [show (Gc x0).nodes = [0, 1, 2, 3] from rfl,
      show (Gc x0).store = G3f x0 from rfl]
  simp only [List.foldl_cons, List.foldl_nil]
  rw [c1_fwd0, c1_fwd1, c1_fwd2, c1_fwd3]
  rfl

theorem c1_binit (th : ℚ → ℚ) (x0 : ℚ) :
    seedTops (G4c th x0).topNodes (paramsZero (G4c th x0).params (G4c th x0).store) =
      SBif th x0 := by
  funext j
  rcases j with _ | _ | _ | _ | j <;> rfl

theorem c1_back3 (th : ℚ → ℚ) (x0 : ℚ) : backNode (SBif th x0) 3 = (SB3f th x0, true) := by
  refine Prod.ext ?_ ?_
  · funext j
    rcases j with _ | _ | _ | _ | j <;> rfl
  · rfl

theorem c1_back2 (th : ℚ → ℚ) (x0 : ℚ) : backNode (SB3f th x0) 2 = (SB2f th x0, true) := by
  refine Prod.ext ?_ ?_
  · funext j
    rcases j with _ | _ | _ | _ | j <;> rfl
  · rfl

theorem c1_back1 (th : ℚ → ℚ) (x0 : ℚ) : backNode (SB2f th x0) 1 = (SB1f th x0, true) := by
  refine Prod.ext ?_ ?_
  · funext j
    rcases j with _ | _ | _ | _ | j <;> rfl
  · rfl

theorem c1_back0 (th : ℚ → ℚ) (x0 : ℚ) : backNode (SB1f th x0) 0 = (SB1f th x0, false) := rfl

theorem c1_backward (th : ℚ → ℚ) (x0 : ℚ) :
    (G4c th x0).backward = .ok (G5c th x0, [3, 2, 1]) := by
  show (if 1 < (G4c th x0).topNodes.length then Except.error wfMsg
    else
      let st1 := paramsZero (G4c th x0).params (G4c th x0).store
      let st2 := seedTops (G4c th x0).topNodes st1
      let p := backLoop (G4c th x0).nodes.reverse st2
      .ok ({ G4c th x0 with store := p.1 }, p.2)) = .ok (G5c th x0, [3, 2, 1])
  rw [if_neg (by rw [show (G4c th x0).topNodes.length = 1 from rfl]; norm_num)]
  simp only [c1_binit]
  rw [show (G4c th x0).nodes.reverse = [3, 2, 1, 0] from rfl]
  simp only [backLoop, c1_back3, c1_back2, c1_back1, c1_back0]
  rfl

theorem c1_backprop (th : ℚ → ℚ) (x0 : ℚ) :
    Graph.backprop th (c1g x0) = .ok (G5c th x0, [3, 2, 1]) := by
  show ((c1g x0).forwardAll th).backward = _
  rw [c1g_eq, c1_forward, c1_backward]

/-- Claim C1: in the graph y = tanh(square(w) + neg(w)), the parameter w is
a child of the two distinct parents square and neg; after backward, the
gradient buffer of w holds the sum of the two parents' contributions,
2 * w * d from the square parent plus (-1) * d from the neg parent, where
d = 1 - tanh(s)^2 is the adjoint delivered to both parents — the closed
form d(square)/dw + d(neg)/dw scaled by the top adjoint, for every input
value and every pointwise tanh kernel. -/
theorem backward_accumulates_two_parent_gradients (th : ℚ → ℚ) (x0 : ℚ) :
    (Graph.backprop th (c1g x0)).map (fun p => (p.1.store 0).adj) =
      .ok (some [2 * x0 * (1 - th (x0 * x0 + -x0) * th (x0 * x0 + -x0)) +
                 (-1) * (1 - th (x0 * x0 + -x0) * th (x0 * x0 + -x0))]) := by
  rw [c1_backprop]
  show Except.ok (some [(0 + -(0 + 1 * (1 - th (x0 * x0 + -x0) * th (x0 * x0 + -x0)))) +
      2 * x0 * (0 + 1 * (1 - th (x0 * x0 + -x0) * th (x0 * x0 + -x0)))]) = _
  simp only [Except.ok.injEq, Option.some.injEq, List.cons.injEq, and_true]
  ring

/-! Basic lemmas about the store and the association lists. -/

theorem supd_apply (st : Store) (i : Nat) (f : GNode → GNode) (j : Nat) :
    supd st i f j = if j = i then f (st j) else st j := rfl

theorem supd_self (st : Store) (i : Nat) (f : GNode → GNode) :
    supd st i f i = f (st i) := by simp [supd]

theorem supd_other (st : Store) (i : Nat) (f : GNode → GNode) {j : Nat} (h : j ≠ i) :
    supd st i f j = st j := by simp [supd, h]

theorem klookup_cons {α β : Type} [DecidableEq α] (k : α) (v : β) (t : List (α × β)) (x : α) :
    klookup ((k, v) :: t) x = if k = x then some v else klookup t x := rfl

theorem klookup_cons_ne {α β : Type} [DecidableEq α] {k x : α} (v : β) (t : List (α × β))
    (h : k ≠ x) : klookup ((k, v) :: t) x = klookup t x := by
  simp [klookup, h]

theorem klookup_eq_none {α β : Type} [DecidableEq α] {l : List (α × β)} {x : α}
    (h : ∀ p ∈ l, p.1 ≠ x) : klookup l x = none := by
  induction l with
  | nil => rfl
  | cons p t ih =>
    obtain ⟨k, v⟩ := p
    rw [klookup_cons, if_neg (h (k, v) (by simp))]
    exact ih (fun q hq => h q (by simp [hq]))

theorem klookup_mem {α β : Type} [DecidableEq α] {l : List (α × β)} {x : α} {v : β}
    (h : klookup l x = some v) : (x, v) ∈ l := by
  induction l with
  | nil => simp [klookup] at h
  | cons p t ih =>
    obtain ⟨k, w⟩ := p
    rw [klookup_cons] at h
    by_cases hk : k = x
    · rw [if_pos hk] at h
      obtain rfl := hk
      obtain rfl : w = v := by simpa using h
      simp
    · rw [if_neg hk] at h
      simp [ih h]

/-- The two fingerprint families never meet: a leaf fingerprint starts with
0, a composite fingerprint with 1. -/
theorem leafHash_ne_naryHash (i : Nat) (nm ty : String) (hs : List HashV) :
    leafHash i ≠ naryHash nm ty hs := by
  simp [leafHash, naryHash]

theorem leafHash_inj {i j : Nat} (h : leafHash i = leafHash j) : i = j := by
  simpa [leafHash] using h

/-! Characterization of ExpressionGraph::add. -/

/-- The CSE hit branch of add: the graph is returned untouched together with
the node already registered under the hash. -/
theorem add_hit {g : Graph} {n m : Nat}
    (h : klookup g.hashMap (g.store n).hashv = some m) : g.add n = (g, m) := by
  unfold Graph.add
  rw [h]

/-- The miss branch of add, written out. -/
theorem add_miss {g : Graph} {n : Nat}
    (h : klookup g.hashMap (g.store n).hashv = none) :
    g.add n =
      (⟨g.count + 1,
        g.nodes ++ [n],
        tapesInsert g.tapes (groupOf g.tapeMap (g.store n).children) n,
        (n, groupOf g.tapeMap (g.store n).children) :: g.tapeMap,
        g.named,
        topInsert g.topNodes n,
        g.params,
        ((g.store n).hashv, n) :: g.hashMap,
        g.next,
        bumpEdges (supd g.store n (fun nd => { nd with id := g.count })) n
          (g.store n).children⟩, n) := by
  unfold Graph.add
  rw [h]

/-- Composition lemmas for the edge-counter updates. -/
theorem addE_addE (k l : Nat) (nd : GNode) : addE k (addE l nd) = addE (l + k) nd := by
  simp [addE, Nat.add_assoc]

theorem addE_zero (nd : GNode) : addE 0 nd = nd := rfl

theorem subE_subE (k l : Nat) (nd : GNode) : subE k (subE l nd) = subE (l + k) nd := by
  simp [subE, Nat.sub_sub]

theorem subE_zero (nd : GNode) : subE 0 nd = nd := rfl

theorem addE_congr {k l : Nat} (nd : GNode) (h : k = l) : addE k nd = addE l nd := by rw [h]

theorem subE_congr {k l : Nat} (nd : GNode) (h : k = l) : subE k nd = subE l nd := by rw [h]

/-- Pointwise effect of the edge-raising loop of add: the edge count of a
slot grows by 2 per occurrence among the children plus 2 per child when the
slot is the new node itself; nothing else changes. -/
theorem bumpEdges_apply (cs : List Nat) (st : Store) (n j : Nat) :
    bumpEdges st n cs j =
      addE (2 * cs.count j + if j = n then 2 * cs.length else 0) (st j) := by
  induction cs generalizing st with
  | nil =>
    show st j = _
    rw [show (2 * List.count j ([] : List Nat) + if j = n then 2 * ([] : List Nat).length else 0) = 0
      by simp]
    exact (addE_zero (st j)).symm
  | cons c t ih =>
    show bumpEdges (supd (supd st c (addE 2)) n (addE 2)) n t j = _
    rw [ih, supd_apply, supd_apply]
    simp only [List.count_cons, List.length_cons, beq_iff_eq]
    split_ifs <;> first
      | exact addE_congr _ (by omega)
      | (simp only [addE_addE]; exact addE_congr _ (by omega))

/-- Pointwise effect of the per-child edge release of the drivers: the edge
count of a slot drops by 1 per occurrence among the children plus 1 per
child when the slot is the visited node; nothing else changes. -/
theorem edgeDecAll_apply (cs : List Nat) (st : Store) (v j : Nat) :
    edgeDecAll st v cs j =
      subE (cs.count j + if j = v then cs.length else 0) (st j) := by
  induction cs generalizing st with
  | nil =>
    show st j = _
    rw [show (List.count j ([] : List Nat) + if j = v then ([] : List Nat).length else 0) = 0
      by simp]
    exact (subE_zero (st j)).symm
  | cons c t ih =>
    show edgeDecAll (supd (supd st v (subE 1)) c (subE 1)) v t j = _
    rw [ih, supd_apply, supd_apply]
    simp only [List.count_cons, List.length_cons, beq_iff_eq]
    split_ifs <;> first
      | exact subE_congr _ (by omega)
      | (simp only [subE_subE]; exact subE_congr _ (by omega))

/-! Projection lemmas for the edge-counter updates. -/

@[simp] theorem addE_edges (k : Nat) (nd : GNode) : (addE k nd).edges = nd.edges + k := rfl
@[simp] theorem addE_ty (k : Nat) (nd : GNode) : (addE k nd).ty = nd.ty := rfl
@[simp] theorem addE_id (k : Nat) (nd : GNode) : (addE k nd).id = nd.id := rfl
@[simp] theorem addE_name (k : Nat) (nd : GNode) : (addE k nd).name = nd.name := rfl
@[simp] theorem addE_children (k : Nat) (nd : GNode) : (addE k nd).children = nd.children := rfl
@[simp] theorem addE_trainable (k : Nat) (nd : GNode) : (addE k nd).trainable = nd.trainable := rfl
@[simp] theorem addE_shape (k : Nat) (nd : GNode) : (addE k nd).shape = nd.shape := rfl
@[simp] theorem addE_hashv (k : Nat) (nd : GNode) : (addE k nd).hashv = nd.hashv := rfl
@[simp] theorem addE_initVal (k : Nat) (nd : GNode) : (addE k nd).initVal = nd.initVal := rfl
@[simp] theorem addE_val (k : Nat) (nd : GNode) : (addE k nd).val = nd.val := rfl
@[simp] theorem addE_adj (k : Nat) (nd : GNode) : (addE k nd).adj = nd.adj := rfl
@[simp] theorem addE_freed (k : Nat) (nd : GNode) : (addE k nd).freed = nd.freed := rfl

@[simp] theorem subE_edges (k : Nat) (nd : GNode) : (subE k nd).edges = nd.edges - k := rfl
@[simp] theorem subE_ty (k : Nat) (nd : GNode) : (subE k nd).ty = nd.ty := rfl
@[simp] theorem subE_id (k : Nat) (nd : GNode) : (subE k nd).id = nd.id := rfl
@[simp] theorem subE_name (k : Nat) (nd : GNode) : (subE k nd).name = nd.name := rfl
@[simp] theorem subE_children (k : Nat) (nd : GNode) : (subE k nd).children = nd.children := rfl
@[simp] theorem subE_trainable (k : Nat) (nd : GNode) : (subE k nd).trainable = nd.trainable := rfl
@[simp] theorem subE_shape (k : Nat) (nd : GNode) : (subE k nd).shape = nd.shape := rfl
@[simp] theorem subE_hashv (k : Nat) (nd : GNode) : (subE k nd).hashv = nd.hashv := rfl
@[simp] theorem subE_val (k : Nat) (nd : GNode) : (subE k nd).val = nd.val := rfl
@[simp] theorem subE_adj (k : Nat) (nd : GNode) : (subE k nd).adj = nd.adj := rfl
@[simp] theorem subE_freed (k : Nat) (nd : GNode) : (subE k nd).freed = nd.freed := rfl

/-- Parent multiplicity depends only on the node list and the children
fields of the store. -/
theorem parentCount_congr {g g' : Graph} (hn : g'.nodes = g.nodes)
    (hc : ∀ u ∈ g.nodes, (g'.store u).children = (g.store u).children) (v : Nat) :
    parentCount g' v = parentCount g v := by
  unfold parentCount
  rw [hn]
  congr 1
  exact List.map_congr_left (fun u hu => by rw [hc u hu])

theorem klookup_none_iff {α β : Type} [DecidableEq α] (l : List (α × β)) (x : α) :
    klookup l x = none ↔ ∀ p ∈ l, p.1 ≠ x := by
  constructor
  · intro h p hp hx
    induction l with
    | nil => simp at hp
    | cons q t ih =>
      rw [klookup_cons] at h
      by_cases hq : q.1 = x
      · rw [if_pos hq] at h
        simp at h
      · rw [if_neg hq] at h
        rcases List.mem_cons.mp hp with rfl | hmem
        · exact hq hx
        · exact ih h hmem
  · exact klookup_eq_none

/-! Preservation of the construction invariant. -/

/-- Writing a fresh slot does not change parent multiplicities. -/
theorem parentCount_fresh_write (g : Graph) (nd : GNode) (tops : List Nat)
    (hb : ∀ v ∈ g.nodes, v < g.next) (v : Nat) :
    parentCount ⟨g.count, g.nodes, g.tapes, g.tapeMap, g.named, tops, g.params, g.hashMap,
      g.next + 1, supd g.store g.next (fun _ => nd)⟩ v = parentCount g v := by
  unfold parentCount
  dsimp only
  congr 1
  refine List.map_congr_left (fun u hu => ?_)
  rw [supd_other _ _ _ (Nat.ne_of_lt (hb u hu))]

/-- Writing a freshly constructed node object into the fresh slot, bumping
the allocation counter and replacing the top-node set leaves the invariant
intact: no live node is touched. -/
theorem inv_fresh_write {g : Graph} (hg : Inv g) (nd : GNode) (tops : List Nat) :
    Inv ⟨g.count, g.nodes, g.tapes, g.tapeMap, g.named, tops, g.params, g.hashMap,
         g.next + 1, supd g.store g.next (fun _ => nd)⟩ := by
  have hread : ∀ v ∈ g.nodes, supd g.store g.next (fun _ => nd) v = g.store v := by
    intro v hv
    exact supd_other _ _ _ (Nat.ne_of_lt (hg.mem_lt_next v hv))
  refine ⟨?_, hg.sorted_mem, ?_, ?_, ?_, ?_, ?_, ?_, ?_, ?_, ?_, hg.params_keys, ?_, ?_⟩
  all_goals dsimp only
  · intro v hv
    exact Nat.lt_succ_of_lt (hg.mem_lt_next v hv)
  · intro v hv
    rw [hread v hv]
    exact hg.ids_lt v hv
  · refine (List.Pairwise.iff_of_mem ?_).mpr hg.sorted_ids
    intro a b ha hb
    rw [hread a ha, hread b hb]
  · intro v hv
    rw [hread v hv]
    exact hg.child_mem v hv
  · intro v hv
    rw [hread v hv]
    exact hg.child_lt v hv
  · intro v hv c hc
    rw [hread v hv] at hc ⊢
    rw [hread c (hg.child_mem v hv c hc)]
    exact hg.child_id_lt v hv c hc
  · intro v hv
    rw [hread v hv]
    rw [parentCount_fresh_write g nd tops hg.mem_lt_next v]
    exact hg.edges_eq v hv
  · intro p hp
    rcases hg.hash_entries p hp with ⟨h1, h2⟩ | h1
    · exact Or.inl ⟨h1, Nat.lt_succ_of_lt h2⟩
    · exact Or.inr h1
  · intro q hq
    have h := hg.params_node q hq
    rw [hread q.2 h.1]
    exact h
  · intro q hq
    rw [hread q.2 (hg.params_node q hq).1]
    exact hg.params_hash q hq
  · intro v hv
    rw [hread v hv]
    exact hg.adj_none v hv
  · intro v hv
    rw [hread v hv]
    exact hg.freed_false v hv

/-- The parent multiplicity of a fresh node among the live nodes is zero. -/
theorem parentCount_fresh {g : Graph} (hg : Inv g) {n : Nat} (hn : n ∉ g.nodes) :
    parentCount g n = 0 := by
  unfold parentCount
  apply List.sum_eq_zero
  intro x hx
  rcases List.mem_map.mp hx with ⟨u, hu, rfl⟩
  exact List.count_eq_zero.mpr (fun h => hn (hg.child_mem u hu n h))

/-- Parent multiplicity in the graph produced by the miss branch of add:
the old multiplicity plus the multiplicity among the children of the new
node. -/
theorem parentCount_add_miss {g : Graph} {n : Nat} (hbound : ∀ v ∈ g.nodes, v < n)
    (v : Nat) :
    parentCount
      ⟨g.count + 1, g.nodes ++ [n],
       tapesInsert g.tapes (groupOf g.tapeMap (g.store n).children) n,
       (n, groupOf g.tapeMap (g.store n).children) :: g.tapeMap, g.named,
       topInsert g.topNodes n, g.params, ((g.store n).hashv, n) :: g.hashMap, g.next,
       bumpEdges (supd g.store n (fun nd => { nd with id := g.count })) n
         (g.store n).children⟩ v
      = parentCount g v + (g.store n).children.count v := by
  unfold parentCount
  rw [show (⟨g.count + 1, g.nodes ++ [n],
       tapesInsert g.tapes (groupOf g.tapeMap (g.store n).children) n,
       (n, groupOf g.tapeMap (g.store n).children) :: g.tapeMap, g.named,
       topInsert g.topNodes n, g.params, ((g.store n).hashv, n) :: g.hashMap, g.next,
       bumpEdges (supd g.store n (fun nd => { nd with id := g.count })) n
         (g.store n).children⟩ : Graph).nodes = g.nodes ++ [n] from rfl]
  rw [List.map_append, List.sum_append]
  congr 1
  · congr 1
    refine List.map_congr_left (fun u hu => ?_)
    have hun : u ≠ n := Nat.ne_of_lt (hbound u hu)
    show (bumpEdges (supd g.store n (fun nd => { nd with id := g.count })) n
      (g.store n).children u).children.count v = _
    rw [bumpEdges_apply, if_neg hun, supd_other _ _ _ hun, addE_children]
  · show [(bumpEdges (supd g.store n (fun nd => { nd with id := g.count })) n
      (g.store n).children n).children.count v].sum = _
    rw [bumpEdges_apply, if_pos rfl, supd_self, addE_children]
    simp

/-- The invariant is preserved across add for a freshly written node object:
on a hash hit the graph is untouched, on a miss the new node enters with the
next id, zero own contribution to edge counts beyond its child links, and a
fingerprint of one of the two families. -/
theorem add_inv {g : Graph} (hg : Inv g) {n : Nat} (hltnext : n < g.next)
    (hbound : ∀ v ∈ g.nodes, v < n)
    (hE : (g.store n).edges = 0)
    (hC : ∀ c ∈ (g.store n).children, c ∈ g.nodes)
    (hA : (g.store n).adj = none) (hF : (g.store n).freed = false)
    (hH : (g.store n).hashv = leafHash n ∨ (g.store n).hashv.head? = some 1) :
    Inv (g.add n).1 := by
  have hmem : n ∉ g.nodes := fun h => Nat.lt_irrefl n (hbound n h)
  rcases hk : klookup g.hashMap (g.store n).hashv with _ | m
  · rw [add_miss hk]
    have hold : ∀ v ∈ g.nodes,
        bumpEdges (supd g.store n (fun nd => { nd with id := g.count })) n
          (g.store n).children v
        = addE (2 * (g.store n).children.count v) (g.store v) := by
      intro v hv
      have hvn : v ≠ n := Nat.ne_of_lt (hbound v hv)
      rw [bumpEdges_apply, if_neg hvn, supd_other _ _ _ hvn, Nat.add_zero]
    have hnew : bumpEdges (supd g.store n (fun nd => { nd with id := g.count })) n
        (g.store n).children n
        = addE (2 * (g.store n).children.length) { g.store n with id := g.count } := by
      rw [bumpEdges_apply, if_pos rfl, supd_self]
      have h0 : (g.store n).children.count n = 0 :=
        List.count_eq_zero.mpr (fun h => hmem (hC n h))
      rw [h0, Nat.mul_zero, Nat.zero_add]
    constructor <;> dsimp only
    · intro v hv
      rcases List.mem_append.mp hv with h | h
      · exact hg.mem_lt_next v h
      · simp at h
        subst h
        exact hltnext
    · refine List.pairwise_append.mpr ⟨hg.sorted_mem, List.pairwise_singleton _ _, ?_⟩
      intro a ha b hb
      simp at hb
      subst hb
      exact hbound a ha
    · intro v hv
      rcases List.mem_append.mp hv with h | h
      · rw [hold v h, addE_id]
        exact Nat.lt_succ_of_lt (hg.ids_lt v h)
      · simp at h
        subst h
        rw [hnew, addE_id]
        exact Nat.lt_succ_self _
    · refine List.pairwise_append.mpr ⟨?_, List.pairwise_singleton _ _, ?_⟩
      · refine (List.Pairwise.iff_of_mem ?_).mpr hg.sorted_ids
        intro a b ha hb
        rw [hold a ha, hold b hb, addE_id, addE_id]
      · intro a ha b hb
        simp at hb
        subst hb
        rw [hold a ha, hnew, addE_id, addE_id]
        exact hg.ids_lt a ha
    · intro v hv
      rcases List.mem_append.mp hv with h | h
      · rw [hold v h, addE_children]
        intro c hc
        exact List.mem_append.mpr (Or.inl (hg.child_mem v h c hc))
      · simp at h
        subst h
        rw [hnew, addE_children]
        intro c hc
        exact List.mem_append.mpr (Or.inl (hC c hc))
    · intro v hv
      rcases List.mem_append.mp hv with h | h
      · rw [hold v h, addE_children]
        exact hg.child_lt v h
      · simp at h
        subst h
        rw [hnew, addE_children]
        intro c hc
        exact hbound c (hC c hc)
    · intro v hv c hc
      rcases List.mem_append.mp hv with h | h
      · rw [hold v h, addE_children] at hc
        rw [hold v h, addE_id, hold c (hg.child_mem v h c hc), addE_id]
        exact hg.child_id_lt v h c hc
      · simp at h
        subst h
        rw [hnew, addE_children] at hc
        rw [hnew, addE_id, hold c (hC c hc), addE_id]
        exact hg.ids_lt c (hC c hc)
    · intro v hv
      rw [parentCount_add_miss hbound v]
      rcases List.mem_append.mp hv with h | h
      · rw [hold v h, addE_edges, addE_children]
        rw [hg.edges_eq v h]
        ring
      · simp at h
        subst h
        rw [hnew, addE_edges, addE_children]
        have hpc0 : parentCount g v = 0 := parentCount_fresh hg hmem
        have hc0 : (g.store v).children.count v = 0 :=
          List.count_eq_zero.mpr (fun hcc => hmem (hC v hcc))
        show (g.store v).edges + 2 * (g.store v).children.length
          = 2 * (g.store v).children.length + 2 * (parentCount g v + (g.store v).children.count v)
        rw [hE, hpc0, hc0]
        omega
    · intro p hp
      rcases List.mem_cons.mp hp with rfl | hpm
      · rcases hH with h | h
        · exact Or.inl ⟨h, hltnext⟩
        · exact Or.inr h
      · rcases hg.hash_entries p hpm with ⟨h1, h2⟩ | h1
        · exact Or.inl ⟨h1, h2⟩
        · exact Or.inr h1
    · intro q hq
      obtain ⟨hqm, hqt, hqh⟩ := hg.params_node q hq
      refine ⟨List.mem_append.mpr (Or.inl hqm), ?_, ?_⟩
      · rw [hold q.2 hqm, addE_trainable]
        exact hqt
      · rw [hold q.2 hqm, addE_hashv]
        exact hqh
    · intro q hq
      obtain ⟨hqm, hqt, hqh⟩ := hg.params_node q hq
      rw [hold q.2 hqm, addE_hashv]
      have hkey : (g.store n).hashv ≠ (g.store q.2).hashv := by
        rw [hqh]
        rcases hH with h | h
        · rw [h]
          intro heq
          have h1 := leafHash_inj heq
          have h2 := hbound q.2 hqm
          omega
        · intro heq
          rw [heq] at h
          simp [leafHash] at h
      rw [klookup_cons_ne _ _ hkey]
      exact hg.params_hash q hq
    · exact hg.params_keys
    · intro v hv
      rcases List.mem_append.mp hv with h | h
      · rw [hold v h, addE_adj]
        exact hg.adj_none v h
      · simp at h
        subst h
        rw [hnew, addE_adj]
        exact hA
    · intro v hv
      rcases List.mem_append.mp hv with h | h
      · rw [hold v h, addE_freed]
        exact hg.freed_false v h
      · simp at h
        subst h
        rw [hnew, addE_freed]
        exact hF
  · rw [add_hit hk]
    exact hg

/-- The empty graph satisfies the construction invariant. -/
theorem inv_empty : Inv emptyGraph := by
  refine ⟨?_, ?_, ?_, ?_, ?_, ?_, ?_, ?_, ?_, ?_, ?_, ?_, ?_, ?_⟩ <;>
    simp [emptyGraph]

/-- mkNary preserves the invariant when the children are live nodes. -/
theorem mkNary_inv {g : Graph} (hg : Inv g) (ty : NTy) {cs : List Nat}
    (hcs : ∀ c ∈ cs, c ∈ g.nodes) (sh : Shape) : Inv (g.mkNary ty cs sh).1 := by
  show Inv ((⟨g.count, g.nodes, g.tapes, g.tapeMap, g.named,
      g.topNodes.filter (fun t => t ∉ cs), g.params, g.hashMap, g.next + 1,
      supd g.store g.next (fun _ =>
        { ty := ty, children := cs, trainable := cs.any (fun c => (g.store c).trainable),
          shape := sh,
          hashv := naryHash "none" ty.typeName (cs.map (fun c => (g.store c).hashv)) })⟩ :
      Graph).add g.next).1
  refine add_inv (inv_fresh_write hg _ _) (Nat.lt_succ_self _) hg.mem_lt_next ?_ ?_ ?_ ?_ ?_
  · show (supd g.store g.next (fun _ =>
      { ty := ty, children := cs, trainable := cs.any (fun c => (g.store c).trainable),
        shape := sh,
        hashv := naryHash "none" ty.typeName (cs.map (fun c => (g.store c).hashv)) })
      g.next).edges = 0
    rw [supd_self]
  · show ∀ c ∈ (supd g.store g.next (fun _ =>
      { ty := ty, children := cs, trainable := cs.any (fun c => (g.store c).trainable),
        shape := sh,
        hashv := naryHash "none" ty.typeName (cs.map (fun c => (g.store c).hashv)) })
      g.next).children, c ∈ g.nodes
    rw [supd_self]
    exact hcs
  · show (supd g.store g.next (fun _ =>
      { ty := ty, children := cs, trainable := cs.any (fun c => (g.store c).trainable),
        shape := sh,
        hashv := naryHash "none" ty.typeName (cs.map (fun c => (g.store c).hashv)) })
      g.next).adj = none
    rw [supd_self]
  · show (supd g.store g.next (fun _ =>
      { ty := ty, children := cs, trainable := cs.any (fun c => (g.store c).trainable),
        shape := sh,
        hashv := naryHash "none" ty.typeName (cs.map (fun c => (g.store c).hashv)) })
      g.next).freed = false
    rw [supd_self]
  · refine Or.inr ?_
    show ((supd g.store g.next (fun _ =>
      { ty := ty, children := cs, trainable := cs.any (fun c => (g.store c).trainable),
        shape := sh,
        hashv := naryHash "none" ty.typeName (cs.map (fun c => (g.store c).hashv)) })
      g.next).hashv).head? = some 1
    rw [supd_self]
    rfl

/-- mkLeaf preserves the invariant. -/
theorem mkLeaf_inv {g : Graph} (hg : Inv g) (ty : NTy) (sh : Shape) (iv : List ℚ) (tr : Bool) :
    Inv (g.mkLeaf ty sh iv tr).1 := by
  show Inv ((⟨g.count, g.nodes, g.tapes, g.tapeMap, g.named, g.topNodes, g.params, g.hashMap,
      g.next + 1, supd g.store g.next (fun _ =>
        { ty := ty, shape := sh, initVal := iv, trainable := tr,
          hashv := leafHash g.next })⟩ : Graph).add g.next).1
  refine add_inv (inv_fresh_write hg _ _) (Nat.lt_succ_self _) hg.mem_lt_next ?_ ?_ ?_ ?_ ?_
  · show (supd g.store g.next (fun _ =>
      { ty := ty, shape := sh, initVal := iv, trainable := tr,
        hashv := leafHash g.next }) g.next).edges = 0
    rw [supd_self]
  · show ∀ c ∈ (supd g.store g.next (fun _ =>
      { ty := ty, shape := sh, initVal := iv, trainable := tr,
        hashv := leafHash g.next }) g.next).children, c ∈ g.nodes
    rw [supd_self]
    intro c hc
    simp at hc
  · show (supd g.store g.next (fun _ =>
      { ty := ty, shape := sh, initVal := iv, trainable := tr,
        hashv := leafHash g.next }) g.next).adj = none
    rw [supd_self]
  · show (supd g.store g.next (fun _ =>
      { ty := ty, shape := sh, initVal := iv, trainable := tr,
        hashv := leafHash g.next }) g.next).freed = false
    rw [supd_self]
  · refine Or.inl ?_
    show (supd g.store g.next (fun _ =>
      { ty := ty, shape := sh, initVal := iv, trainable := tr,
        hashv := leafHash g.next }) g.next).hashv = leafHash g.next
    rw [supd_self]

/-- The hash of a still unallocated leaf slot is absent from the hash map. -/
theorem leaf_lookup_none {g : Graph} (hg : Inv g) :
    klookup g.hashMap (leafHash g.next) = none := by
  apply klookup_eq_none
  intro p hp hx
  rcases hg.hash_entries p hp with ⟨h1, h2⟩ | h1
  · rw [hx] at h1
    exact Nat.lt_irrefl _ (leafHash_inj h1.symm ▸ h2)
  · rw [hx] at h1
    simp [leafHash] at h1

/-- Explicit form of a fresh leaf creation: leaves are never merged by CSE,
so add always takes the miss branch and the new node gets the fresh slot. -/
theorem mkLeaf_spec {g : Graph} (hg : Inv g) (ty : NTy) (sh : Shape) (iv : List ℚ) (tr : Bool) :
    g.mkLeaf ty sh iv tr =
      (⟨g.count + 1, g.nodes ++ [g.next],
        tapesInsert g.tapes 0 g.next,
        (g.next, 0) :: g.tapeMap,
        g.named, topInsert g.topNodes g.next, g.params,
        (leafHash g.next, g.next) :: g.hashMap,
        g.next + 1,
        supd (supd g.store g.next
          (fun _ => { ty := ty, shape := sh, initVal := iv, trainable := tr,
                      hashv := leafHash g.next }))
          g.next (fun nd => { nd with id := g.count })⟩, g.next) := by
  show Graph.add ⟨g.count, g.nodes, g.tapes, g.tapeMap, g.named, g.topNodes, g.params,
      g.hashMap, g.next + 1, supd g.store g.next (fun _ =>
        { ty := ty, shape := sh, initVal := iv, trainable := tr,
          hashv := leafHash g.next })⟩ g.next = _
  rw [add_miss (by
    show klookup g.hashMap ((supd g.store g.next (fun _ =>
      { ty := ty, shape := sh, initVal := iv, trainable := tr,
        hashv := leafHash g.next }) g.next).hashv) = none
    rw [supd_self]
    exact leaf_lookup_none hg)]
  refine Prod.ext ?_ rfl
  refine Graph.ext rfl rfl ?_ ?_ rfl rfl rfl ?_ rfl ?_
  · show tapesInsert g.tapes (groupOf g.tapeMap (supd g.store g.next (fun _ =>
      { ty := ty, shape := sh, initVal := iv, trainable := tr,
        hashv := leafHash g.next }) g.next).children) g.next = _
    rw [supd_self]
    rfl
  · show ((g.next, groupOf g.tapeMap (supd g.store g.next (fun _ =>
      { ty := ty, shape := sh, initVal := iv, trainable := tr,
        hashv := leafHash g.next }) g.next).children) :: g.tapeMap) = _
    rw [supd_self]
    rfl
  · show (((supd g.store g.next (fun _ =>
      { ty := ty, shape := sh, initVal := iv, trainable := tr,
        hashv := leafHash g.next }) g.next).hashv, g.next) :: g.hashMap) = _
    rw [supd_self]
  · funext j
    show bumpEdges (supd (supd g.store g.next (fun _ =>
      { ty := ty, shape := sh, initVal := iv, trainable := tr,
        hashv := leafHash g.next })) g.next (fun nd => { nd with id := g.count })) g.next
      (supd g.store g.next (fun _ =>
        { ty := ty, shape := sh, initVal := iv, trainable := tr,
          hashv := leafHash g.next }) g.next).children j = _
    rw [supd_self]
    show bumpEdges _ g.next [] j = _
    rw [bumpEdges_apply]
    simp only [List.count_nil, List.length_nil, Nat.mul_zero, Nat.zero_add, Nat.add_zero,
      ite_self]
    exact addE_zero _

/-- The reuse branch of param: an existing parameter of the same name is
returned as is, the graph is unchanged because the hash of the parameter is
already registered. -/
theorem param_reuse_spec {g : Graph} (hg : Inv g) {nm : String} {q : Nat}
    (hq : klookup g.params nm = some q) (sh : Shape) (iv : List ℚ) :
    g.param nm sh iv = .ok (g, q) := by
  unfold Graph.param
  rw [hq]
  show Except.ok ((g.add q).1, q) = Except.ok (g, q)
  have hh := hg.params_hash (nm, q) (klookup_mem hq)
  rw [add_hit (show klookup g.hashMap ((g.store q).hashv) = some q from hh)]

/-- The collision branch of param: a non-parameter node already owns the
name, so param raises the fatal naming error. -/
theorem param_collision_spec (g : Graph) {nm : String}
    (hq : klookup g.params nm = none) (hn : (g.get nm).isSome) (sh : Shape) (iv : List ℚ) :
    g.param nm sh iv = .error "Non-parameter with name already exists" := by
  unfold Graph.param
  rw [hq, if_pos hn]

/-- Explicit form of a fresh parameter creation. -/
theorem param_create_spec {g : Graph} (hg : Inv g) (nm : String) (sh : Shape) (iv : List ℚ)
    (hq : klookup g.params nm = none) (hn : g.get nm = none) :
    g.param nm sh iv = .ok
      (⟨g.count + 1, g.nodes ++ [g.next],
        tapesInsert g.tapes 0 g.next,
        (g.next, 0) :: g.tapeMap,
        g.named, topInsert g.topNodes g.next, (nm, g.next) :: g.params,
        (leafHash g.next, g.next) :: g.hashMap,
        g.next + 1,
        supd (supd (supd g.store g.next
          (fun _ => { ty := .paramT, shape := sh, initVal := iv, trainable := true,
                      hashv := leafHash g.next }))
          g.next (fun nd => { nd with id := g.count }))
          g.next (fun nd => { nd with name := nm })⟩, g.next) := by
  unfold Graph.param
  rw [hq, if_neg (by rw [hn]; simp)]
  rw [mkLeaf_spec hg]

/-- Renaming one live node and recording it in the parameter table preserves
the invariant, when the node is a trainable leaf already registered in the
hash map and the name is unused. -/
theorem param_create_inv {g0 : Graph} (hg0 : Inv g0) {idx : Nat} (nm : String)
    (hmem : idx ∈ g0.nodes) (htr : (g0.store idx).trainable = true)
    (hhv : (g0.store idx).hashv = leafHash idx)
    (hlk : klookup g0.hashMap (leafHash idx) = some idx)
    (hkey : klookup g0.params nm = none) :
    Inv ⟨g0.count, g0.nodes, g0.tapes, g0.tapeMap, g0.named, g0.topNodes,
      (nm, idx) :: g0.params, g0.hashMap, g0.next,
      supd g0.store idx (fun nd => { nd with name := nm })⟩ := by
  have hf : ∀ v, supd g0.store idx (fun nd => { nd with name := nm }) v =
      { g0.store v with name := if v = idx then nm else (g0.store v).name } := by
    intro v
    by_cases hv : v = idx
    · rw [if_pos hv, supd_apply, if_pos hv]
    · rw [if_neg hv, supd_apply, if_neg hv]
  refine ⟨?_, hg0.sorted_mem, ?_, ?_, ?_, ?_, ?_, ?_, ?_, ?_, ?_, ?_, ?_, ?_⟩
  all_goals dsimp only
  · exact hg0.mem_lt_next
  · intro v hv
    rw [hf v]
    exact hg0.ids_lt v hv
  · refine (List.Pairwise.iff_of_mem ?_).mpr hg0.sorted_ids
    intro a b ha hb
    rw [hf a, hf b]
  · intro v hv
    rw [hf v]
    exact hg0.child_mem v hv
  · intro v hv
    rw [hf v]
    exact hg0.child_lt v hv
  · intro v hv c hc
    rw [hf v] at hc ⊢
    rw [hf c]
    exact hg0.child_id_lt v hv c hc
  · intro v hv
    rw [hf v]
    show (g0.store v).edges = 2 * (g0.store v).children.length + 2 * parentCount
      ⟨g0.count, g0.nodes, g0.tapes, g0.tapeMap, g0.named, g0.topNodes,
        (nm, idx) :: g0.params, g0.hashMap, g0.next,
        supd g0.store idx (fun nd => { nd with name := nm })⟩ v
    rw [@parentCount_congr g0
      ⟨g0.count, g0.nodes, g0.tapes, g0.tapeMap, g0.named, g0.topNodes,
        (nm, idx) :: g0.params, g0.hashMap, g0.next,
        supd g0.store idx (fun nd => { nd with name := nm })⟩ rfl
      (fun u _ => by
        show (supd g0.store idx (fun nd => { nd with name := nm }) u).children
          = (g0.store u).children
        rw [hf u]) v]
    exact hg0.edges_eq v hv
  · exact hg0.hash_entries
  · intro q hq
    rcases List.mem_cons.mp hq with rfl | hqm
    · refine ⟨hmem, ?_, ?_⟩
      · rw [hf idx]
        exact htr
      · rw [hf idx]
        exact hhv
    · obtain ⟨h1, h2, h3⟩ := hg0.params_node q hqm
      refine ⟨h1, ?_, ?_⟩
      · rw [hf q.2]
        exact h2
      · rw [hf q.2]
        exact h3
  · intro q hq
    rcases List.mem_cons.mp hq with rfl | hqm
    · rw [hf idx]
      show klookup g0.hashMap (g0.store idx).hashv = some idx
      rw [hhv]
      exact hlk
    · rw [hf q.2]
      show klookup g0.hashMap (g0.store q.2).hashv = some q.2
      exact hg0.params_hash q hqm
  · refine List.nodup_cons.mpr ⟨?_, hg0.params_keys⟩
    intro hmm
    rcases List.mem_map.mp hmm with ⟨q, hq, hq1⟩
    exact absurd hq1 ((klookup_none_iff _ _).mp hkey q hq)
  · intro v hv
    rw [hf v]
    exact hg0.adj_none v hv
  · intro v hv
    rw [hf v]
    exact hg0.freed_false v hv

/-- Graph.param preserves the invariant. -/
theorem param_inv {g g' : Graph} {p : Nat} {nm : String} {sh : Shape} {iv : List ℚ}
    (hg : Inv g) (h : g.param nm sh iv = .ok (g', p)) : Inv g' := by
  rcases hq : klookup g.params nm with _ | q
  · by_cases hn : (g.get nm).isSome
    · rw [param_collision_spec g hq hn] at h
      cases h
    · have hn2 : g.get nm = none := by
        rcases h2 : g.get nm with _ | x
        · rfl
        · rw [h2] at hn
          simp at hn
      rw [param_create_spec hg nm sh iv hq hn2] at h
      obtain ⟨rfl, rfl⟩ : _ ∧ g.next = p := by
        simpa using h
      have hgL := mkLeaf_inv hg .paramT sh iv true
      rw [mkLeaf_spec hg] at hgL
      exact param_create_inv hgL nm
        (List.mem_append.mpr (Or.inr (by simp)))
        (by rw [show ((⟨g.count + 1, g.nodes ++ [g.next], tapesInsert g.tapes 0 g.next,
            (g.next, 0) :: g.tapeMap, g.named, topInsert g.topNodes g.next, g.params,
            (leafHash g.next, g.next) :: g.hashMap, g.next + 1,
            supd (supd g.store g.next
              (fun _ => { ty := .paramT, shape := sh, initVal := iv, trainable := true,
                          hashv := leafHash g.next }))
              g.next (fun nd => { nd with id := g.count })⟩ : Graph).store g.next)
            = { ({ ty := .paramT, shape := sh, initVal := iv, trainable := true,
                   hashv := leafHash g.next } : GNode) with id := g.count } from by
            dsimp only
            rw [supd_self, supd_self]])
        (by rw [show ((⟨g.count + 1, g.nodes ++ [g.next], tapesInsert g.tapes 0 g.next,
            (g.next, 0) :: g.tapeMap, g.named, topInsert g.topNodes g.next, g.params,
            (leafHash g.next, g.next) :: g.hashMap, g.next + 1,
            supd (supd g.store g.next
              (fun _ => { ty := .paramT, shape := sh, initVal := iv, trainable := true,
                          hashv := leafHash g.next }))
              g.next (fun nd => { nd with id := g.count })⟩ : Graph).store g.next)
            = { ({ ty := .paramT, shape := sh, initVal := iv, trainable := true,
                   hashv := leafHash g.next } : GNode) with id := g.count } from by
            dsimp only
            rw [supd_self, supd_self]])
        (by rw [klookup_cons]
            simp)
        hq
  · rw [param_reuse_spec hg hq sh iv] at h
    obtain ⟨rfl, rfl⟩ : g = g' ∧ q = p := by simpa using h
    exact hg

/-- add_named_node preserves the invariant. -/
theorem addNamed_inv {g : Graph} (hg : Inv g) (nm : String) (v : Nat) :
    Inv (g.addNamed nm v) :=
  ⟨hg.mem_lt_next, hg.sorted_mem, hg.ids_lt, hg.sorted_ids, hg.child_mem, hg.child_lt,
   hg.child_id_lt, hg.edges_eq, hg.hash_entries, hg.params_node, hg.params_hash,
   hg.params_keys, hg.adj_none, hg.freed_false⟩

/-- Every graph reachable through the public construction entry points
satisfies the construction invariant. -/
theorem built_inv {g : Graph} (hb : Built g) : Inv g := by
  induction hb with
  | empty => exact inv_empty
  | leaf ty sh iv tr hty hb ih => exact mkLeaf_inv ih ty sh iv tr
  | tanh hb hne hcs ih => exact mkNary_inv ih .tanh hcs _
  | unary ty hb hty hc ih =>
    exact mkNary_inv ih ty (by intro c hc2; simp at hc2; subst hc2; exact hc) _
  | paramStep nm sh iv hb hok ih => exact param_inv ih hok
  | namedStep nm hb hget hv ih => exact addNamed_inv ih nm _

/-! Characterization of mkNary: the construction step behind every composite
node, written out for both CSE branches. -/

theorem mkNary_eq_add (g : Graph) (ty : NTy) (cs : List Nat) (sh : Shape) :
    g.mkNary ty cs sh =
      Graph.add
        ⟨g.count, g.nodes, g.tapes, g.tapeMap, g.named,
         g.topNodes.filter (fun t => t ∉ cs), g.params, g.hashMap,
         g.next + 1,
         supd g.store g.next (fun _ =>
           { ty := ty, children := cs,
             trainable := cs.any (fun c => (g.store c).trainable),
             shape := sh,
             hashv := naryHash "none" ty.typeName (cs.map (fun c => (g.store c).hashv)) })⟩
        g.next := rfl

/-- The CSE hit branch of a composite construction: the candidate object is
allocated and the children leave the top-node set, but the registered node of
equal hash is returned and the id counter, node list, tape levels and hash
map stay as they were. -/
theorem mkNary_hit_spec {g : Graph} {ty : NTy} {cs : List Nat} {m : Nat} (sh : Shape)
    (h : klookup g.hashMap
        (naryHash "none" ty.typeName (cs.map (fun c => (g.store c).hashv))) = some m) :
    g.mkNary ty cs sh =
      (⟨g.count, g.nodes, g.tapes, g.tapeMap, g.named,
        g.topNodes.filter (fun t => t ∉ cs), g.params, g.hashMap,
        g.next + 1,
        supd g.store g.next (fun _ =>
          { ty := ty, children := cs,
            trainable := cs.any (fun c => (g.store c).trainable),
            shape := sh,
            hashv := naryHash "none" ty.typeName (cs.map (fun c => (g.store c).hashv)) })⟩,
       m) := by
  rw [mkNary_eq_add]
  exact add_hit (by
    show klookup g.hashMap ((supd g.store g.next (fun _ =>
      { ty := ty, children := cs,
        trainable := cs.any (fun c => (g.store c).trainable),
        shape := sh,
        hashv := naryHash "none" ty.typeName (cs.map (fun c => (g.store c).hashv)) })
      g.next).hashv) = some m
    rw [supd_self]
    exact h)

/-- After a composite construction the structural hash of the result is
registered in the hash map under the returned node, whichever branch ran. -/
theorem mkNary_lookup (g : Graph) (ty : NTy) (cs : List Nat) (sh : Shape) :
    klookup (g.mkNary ty cs sh).1.hashMap
        (naryHash "none" ty.typeName (cs.map (fun c => (g.store c).hashv))) =
      some (g.mkNary ty cs sh).2 := by
  rcases hk : klookup g.hashMap
      (naryHash "none" ty.typeName (cs.map (fun c => (g.store c).hashv))) with _ | m
  · rw [mkNary_eq_add, add_miss (by
      show klookup g.hashMap ((supd g.store g.next (fun _ =>
        { ty := ty, children := cs,
          trainable := cs.any (fun c => (g.store c).trainable),
          shape := sh,
          hashv := naryHash "none" ty.typeName (cs.map (fun c => (g.store c).hashv)) })
        g.next).hashv) = none
      rw [supd_self]
      exact hk)]
    show klookup (((supd g.store g.next (fun _ =>
        { ty := ty, children := cs,
          trainable := cs.any (fun c => (g.store c).trainable),
          shape := sh,
          hashv := naryHash "none" ty.typeName (cs.map (fun c => (g.store c).hashv)) })
        g.next).hashv, g.next) :: g.hashMap)
        (naryHash "none" ty.typeName (cs.map (fun c => (g.store c).hashv))) = some g.next
    rw [supd_self]
    rw [klookup_cons, if_pos rfl]
  · rw [mkNary_hit_spec sh hk]
    exact hk

/-- A composite construction leaves the structural hash of every live node
unchanged. -/
theorem mkNary_store_hashv {g : Graph} (hg : Inv g) (ty : NTy) (cs : List Nat) (sh : Shape)
    {v : Nat} (hv : v ∈ g.nodes) :
    ((g.mkNary ty cs sh).1.store v).hashv = (g.store v).hashv := by
  have hvne : v ≠ g.next := Nat.ne_of_lt (hg.mem_lt_next v hv)
  rcases hk : klookup g.hashMap
      (naryHash "none" ty.typeName (cs.map (fun c => (g.store c).hashv))) with _ | m
  · rw [mkNary_eq_add, add_miss (by
      show klookup g.hashMap ((supd g.store g.next (fun _ =>
        { ty := ty, children := cs,
          trainable := cs.any (fun c => (g.store c).trainable),
          shape := sh,
          hashv := naryHash "none" ty.typeName (cs.map (fun c => (g.store c).hashv)) })
        g.next).hashv) = none
      rw [supd_self]
      exact hk)]
    dsimp only
    rw [bumpEdges_apply, addE_hashv, supd_other _ _ _ hvne, supd_other _ _ _ hvne]
  · rw [mkNary_hit_spec sh hk]
    dsimp only
    rw [supd_other _ _ _ hvne]

/-- Claim C3: in every graph reachable through the construction interface,
the id of every child is strictly below the id of its parent, and along the
node list (insertion order) the ids grow strictly: id assignment order is
insertion order, a topological order of the graph. -/
theorem built_graph_topological_ids {g : Graph} (hb : Built g) :
    (∀ v ∈ g.nodes, ∀ c ∈ (g.store v).children, (g.store c).id < (g.store v).id) ∧
    g.nodes.Pairwise (fun a b => (g.store a).id < (g.store b).id) :=
  ⟨(built_inv hb).child_id_lt, (built_inv hb).sorted_ids⟩

/-- Witness for claim C3 at the concrete four-node graph of the verification
scenario: the square child of the top tanh node carries a strictly smaller
id. -/
theorem built_graph_topological_ids_witness :
    ((Gc 0).store 1).id < ((Gc 0).store 3).id := by
  have h0 : Built (G0 0) := Built.paramStep "w" ⟨1, 1, 1, 1⟩ [0] Built.empty (c1_step0 0)
  have h1 : Built (G1 0) := by
    have h := @Built.unary (G0 0) 0 .square h0 (Or.inl rfl) (by decide)
    rw [c1_step1] at h
    exact h
  have h2 : Built (G2 0) := by
    have h := @Built.unary (G1 0) 0 .neg h1 (Or.inr rfl) (by decide)
    rw [c1_step2] at h
    exact h
  have h3 : Built (Gc 0) := by
    have h := @Built.tanh (G2 0) [1, 2] h2 (by simp) (by decide)
    rw [c1_step3, c1_flatten] at h
    exact h
  exact (built_graph_topological_ids h3).1 3 (by decide) 1 (by decide)

/-- Claim C2: backward fails with the single-root well-formedness error
exactly when the top-node set holds more than one node, and returns a
completed pass (final graph and freed list) exactly when it holds at most
one. -/
theorem backward_rejects_multiple_top_nodes (g : Graph) :
    (g.backward = .error wfMsg ↔ 1 < g.topNodes.length) ∧
    ((∃ r, g.backward = .ok r) ↔ g.topNodes.length ≤ 1) := by
  unfold Graph.backward
  by_cases h : 1 < g.topNodes.length
  · rw [if_pos h]
    refine ⟨⟨fun _ => h, fun _ => rfl⟩, ?_, ?_⟩
    · rintro ⟨r, hr⟩
      exact Except.noConfusion hr
    · intro hle
      omega
  · rw [if_neg h]
    refine ⟨⟨fun hE => Except.noConfusion hE, fun hlt => absurd hlt h⟩, ?_, ?_⟩
    · intro _
      omega
    · intro _
      exact ⟨_, rfl⟩

/-- Claim C9: with an empty top-node set backward does not raise the
well-formedness error: nothing is seeded and the reverse traversal of the
node list runs to completion (vacuously on the empty graph). -/
theorem backward_empty_top_nodes_ok (g : Graph) (h : g.topNodes = []) :
    g.backward =
      .ok ({ g with store := (backLoop g.nodes.reverse (paramsZero g.params g.store)).1 },
           (backLoop g.nodes.reverse (paramsZero g.params g.store)).2) := by
  unfold Graph.backward
  rw [if_neg (by rw [h]; simp)]
  rw [h]
  rfl

/-- Witness for claim C9: on the empty graph backward completes vacuously. -/
theorem backward_empty_top_nodes_ok_witness :
    emptyGraph.backward = .ok (emptyGraph, []) :=
  backward_empty_top_nodes_ok emptyGraph rfl

/-- Claim C4: constructing a second structurally identical subexpression is
a CSE hit: it returns the node identity of the first construction, and the
id counter, the node list, the tape levels and the edge count of every live
node are unchanged by the second call. -/
theorem cse_identical_subexpression_shares_identity {g : Graph} (hg : Inv g)
    {c : Nat} (hc : c ∈ g.nodes) (ty : NTy) :
    ((g.mkUnary ty c).1.mkUnary ty c).2 = (g.mkUnary ty c).2 ∧
    ((g.mkUnary ty c).1.mkUnary ty c).1.count = (g.mkUnary ty c).1.count ∧
    ((g.mkUnary ty c).1.mkUnary ty c).1.nodes = (g.mkUnary ty c).1.nodes ∧
    ((g.mkUnary ty c).1.mkUnary ty c).1.tapes = (g.mkUnary ty c).1.tapes ∧
    ∀ v ∈ (g.mkUnary ty c).1.nodes,
      (((g.mkUnary ty c).1.mkUnary ty c).1.store v).edges =
        ((g.mkUnary ty c).1.store v).edges := by
  have hcs : ∀ x ∈ [c], x ∈ g.nodes := by
    intro x hx
    rw [List.mem_singleton.mp hx]
    exact hc
  have hg1 : Inv (g.mkUnary ty c).1 := mkNary_inv hg ty hcs ((g.store c).shape)
  have hpres : ((g.mkUnary ty c).1.store c).hashv = (g.store c).hashv :=
    mkNary_store_hashv hg ty [c] ((g.store c).shape) hc
  have hkey : klookup (g.mkUnary ty c).1.hashMap
      (naryHash "none" ty.typeName
        ([c].map (fun x => ((g.mkUnary ty c).1.store x).hashv))) =
      some (g.mkUnary ty c).2 := by
    rw [show [c].map (fun x => ((g.mkUnary ty c).1.store x).hashv) =
        [((g.mkUnary ty c).1.store c).hashv] from rfl, hpres]
    exact mkNary_lookup g ty [c] ((g.store c).shape)
  have hsecond : (g.mkUnary ty c).1.mkUnary ty c =
      (⟨(g.mkUnary ty c).1.count, (g.mkUnary ty c).1.nodes, (g.mkUnary ty c).1.tapes,
        (g.mkUnary ty c).1.tapeMap, (g.mkUnary ty c).1.named,
        (g.mkUnary ty c).1.topNodes.filter (fun t => t ∉ [c]),
        (g.mkUnary ty c).1.params, (g.mkUnary ty c).1.hashMap,
        (g.mkUnary ty c).1.next + 1,
        supd (g.mkUnary ty c).1.store (g.mkUnary ty c).1.next (fun _ =>
          { ty := ty, children := [c],
            trainable := [c].any (fun x => ((g.mkUnary ty c).1.store x).trainable),
            shape := ((g.mkUnary ty c).1.store c).shape,
            hashv := naryHash "none" ty.typeName
              ([c].map (fun x => ((g.mkUnary ty c).1.store x).hashv)) })⟩,
       (g.mkUnary ty c).2) :=
    mkNary_hit_spec ((g.mkUnary ty c).1.store c).shape hkey
  rw [hsecond]
  refine ⟨rfl, rfl, rfl, rfl, ?_⟩
  intro v hv
  dsimp only
  rw [supd_other _ _ _ (Nat.ne_of_lt (hg1.mem_lt_next v hv))]

/-- Witness for claim C4 at the concrete one-parameter graph: repeating the
construction square(w) returns the node of the first construction. -/
theorem cse_identical_subexpression_shares_identity_witness :
    (((G0 0).mkUnary .square 0).1.mkUnary .square 0).2 = ((G0 0).mkUnary .square 0).2 :=
  (cse_identical_subexpression_shares_identity (param_inv inv_empty (c1_step0 0))
    (by decide) .square).1

/-- Claim C8: requesting a parameter under a name owned by a non-parameter
node is the fatal naming collision and yields no node; requesting a
parameter under a name already bound in the parameter table returns that
same node on the unchanged graph; after a generation clear the same request
re-attaches the existing node to the fresh node list instead of creating a
new one. -/
theorem param_collision_and_reuse {g : Graph} (hg : Inv g) (nm : String)
    (sh : Shape) (iv : List ℚ) :
    (klookup g.params nm = none → (g.get nm).isSome = true →
        g.param nm sh iv = .error "Non-parameter with name already exists") ∧
    (∀ q, klookup g.params nm = some q →
        g.param nm sh iv = .ok (g, q) ∧ q ∈ g.nodes) ∧
    (∀ q, klookup g.params nm = some q →
        ∃ g2, g.clear.param nm sh iv = .ok (g2, q) ∧ q ∈ g2.nodes) := by
  refine ⟨fun hq hn => param_collision_spec g hq hn sh iv, fun q hq => ?_, fun q hq => ?_⟩
  · exact ⟨param_reuse_spec hg hq sh iv, (hg.params_node (nm, q) (klookup_mem hq)).1⟩
  · refine ⟨(g.clear.add q).1, ?_, ?_⟩
    · show g.clear.param nm sh iv = .ok ((g.clear.add q).1, q)
      unfold Graph.param
      rw [show klookup g.clear.params nm = some q from hq]
    · rw [add_miss (show klookup g.clear.hashMap ((g.clear.store q).hashv) = none from rfl)]
      show q ∈ g.clear.nodes ++ [q]
      simp

/-- Witness for claim C8 at the one-parameter graph: requesting parameter w
again returns the original node 0 on the unchanged graph. -/
theorem param_collision_and_reuse_witness :
    (G0 0).param "w" ⟨1, 1, 1, 1⟩ [0] = .ok (G0 0, 0) ∧ 0 ∈ (G0 0).nodes :=
  (param_collision_and_reuse (param_inv inv_empty (c1_step0 0)) "w"
    ⟨1, 1, 1, 1⟩ [0]).2.1 0 rfl

/-! The gradient-writing steps of the backward driver as adjoint-only,
trainable-gated store transformations. -/

theorem adjW_refl (st : Store) : adjW st st :=
  fun j => ⟨⟨(st j).adj, rfl⟩, fun _ => rfl⟩

theorem adjW_trans {a b c : Store} (h1 : adjW a b) (h2 : adjW b c) : adjW a c := by
  intro j
  obtain ⟨⟨x1, e1⟩, f1⟩ := h1 j
  obtain ⟨⟨x2, e2⟩, f2⟩ := h2 j
  refine ⟨⟨x2, ?_⟩, fun htr => ?_⟩
  · rw [e2, e1]
  · have hb : (b j).trainable = false := by
      rw [f1 htr]
      exact htr
    rw [f2 hb, f1 htr]

theorem adjW_supd (st : Store) (c : Nat) (f : GNode → GNode)
    (hf : ∀ nd, ∃ a, f nd = { nd with adj := a })
    (h : (st c).trainable = true) :
    adjW st (supd st c f) := by
  intro j
  by_cases hj : j = c
  · subst hj
    obtain ⟨a, ha⟩ := hf (st j)
    refine ⟨⟨a, by rw [supd_self, ha]⟩, fun htr => ?_⟩
    rw [htr] at h
    exact absurd h (by simp)
  · exact ⟨⟨(st j).adj, by rw [supd_other _ _ _ hj]⟩, fun _ => supd_other _ _ _ hj⟩

theorem adjW_zeroKids (st : Store) (cs : List Nat) : adjW st (zeroKids st cs) := by
  induction cs generalizing st with
  | nil => exact adjW_refl st
  | cons c t ih =>
    have h1 : adjW st (if (st c).trainable then supd st c (fun nd =>
        if nd.adj.isNone then { nd with adj := some (List.replicate nd.shape.elements 0) }
        else nd) else st) := by
      split_ifs with h
      · refine adjW_supd st c _ (fun nd => ?_) h
        split_ifs
        · exact ⟨_, rfl⟩
        · exact ⟨nd.adj, rfl⟩
      · exact adjW_refl st
    exact adjW_trans h1 (ih _)

theorem adjW_gradFold (cs : List Nat) (contrib : List ℚ) :
    ∀ st, adjW st
      (cs.foldl (fun st c => if (st c).trainable then addGrad st c contrib else st) st) := by
  induction cs with
  | nil => exact fun st => adjW_refl st
  | cons c t ih =>
    intro st
    have h1 : adjW st (if (st c).trainable then addGrad st c contrib else st) := by
      split_ifs with h
      · exact adjW_supd st c _ (fun nd => ⟨_, rfl⟩) h
      · exact adjW_refl st
    exact adjW_trans h1 (ih _)

theorem adjW_runBwdOps (st : Store) (v : Nat) : adjW st (runBwdOps st v) := by
  unfold runBwdOps
  dsimp only
  split
  · exact adjW_gradFold _ _ st
  · split_ifs with h
    · exact adjW_supd st _ _ (fun nd => ⟨_, rfl⟩) h
    · exact adjW_refl st
  · split_ifs with h
    · exact adjW_supd st _ _ (fun nd => ⟨_, rfl⟩) h
    · exact adjW_refl st
  · exact adjW_refl st

theorem adjW_bgrad (st : Store) (v : Nat) : adjW st (bgrad st v) := by
  show adjW st (if (zeroKids st (st v).children v).trainable
    then runBwdOps (zeroKids st (st v).children) v
    else zeroKids st (st v).children)
  split_ifs
  · exact adjW_trans (adjW_zeroKids st _) (adjW_runBwdOps _ v)
  · exact adjW_zeroKids st _

/-! Piecewise description of one backward visit. -/

theorem bdec_apply (st : Store) (v j : Nat) :
    bdec st v j =
      subE ((st v).children.count j + if j = v then (st v).children.length else 0)
        (bgrad st v j) := by
  unfold bdec
  rw [edgeDecAll_apply]
  have hc : (bgrad st v v).children = (st v).children := by
    obtain ⟨⟨a, e⟩, _⟩ := adjW_bgrad st v v
    rw [e]
  rw [hc]

theorem bdec_children (st : Store) (v j : Nat) : (bdec st v j).children = (st j).children := by
  rw [bdec_apply, subE_children]
  obtain ⟨⟨a, e⟩, _⟩ := adjW_bgrad st v j
  rw [e]

theorem bdec_name (st : Store) (v j : Nat) : (bdec st v j).name = (st j).name := by
  rw [bdec_apply, subE_name]
  obtain ⟨⟨a, e⟩, _⟩ := adjW_bgrad st v j
  rw [e]

theorem bdec_trainable (st : Store) (v j : Nat) :
    (bdec st v j).trainable = (st j).trainable := by
  rw [bdec_apply, subE_trainable]
  obtain ⟨⟨a, e⟩, _⟩ := adjW_bgrad st v j
  rw [e]

theorem bdec_freed (st : Store) (v j : Nat) : (bdec st v j).freed = (st j).freed := by
  rw [bdec_apply, subE_freed]
  obtain ⟨⟨a, e⟩, _⟩ := adjW_bgrad st v j
  rw [e]

theorem bdec_edges (st : Store) (v j : Nat) :
    (bdec st v j).edges =
      (st j).edges - ((st v).children.count j + if j = v then (st v).children.length else 0) := by
  rw [bdec_apply, subE_edges]
  obtain ⟨⟨a, e⟩, _⟩ := adjW_bgrad st v j
  rw [e]

theorem bdec_adj_skip (st : Store) (v j : Nat) (htr : (st j).trainable = false) :
    (bdec st v j).adj = (st j).adj := by
  rw [bdec_apply, subE_adj]
  obtain ⟨_, f⟩ := adjW_bgrad st v j
  rw [f htr]

theorem backNode_eq (st : Store) (v : Nat) :
    backNode st v =
      if bfire st v then
        (supd (bdec st v) v (fun nd => { nd with val := none, adj := none, freed := true }),
         true)
      else (bdec st v, false) := rfl

theorem backNode_snd (st : Store) (v : Nat) : (backNode st v).2 = bfire st v := by
  rw [backNode_eq]
  cases hb : bfire st v <;> simp [hb]

theorem backNode_fst (st : Store) (v j : Nat) :
    (backNode st v).1 j =
      if bfire st v = true ∧ j = v then
        { bdec st v j with val := none, adj := none, freed := true }
      else bdec st v j := by
  cases hb : bfire st v with
  | false =>
    rw [backNode_eq, hb]
    rw [if_neg (by simp), if_neg (by simp)]
  | true =>
    rw [backNode_eq, hb, if_pos rfl]
    by_cases hj : j = v
    · rw [if_pos ⟨rfl, hj⟩]
      subst hj
      dsimp only
      rw [supd_self]
    · rw [if_neg (fun hh => hj hh.2)]
      dsimp only
      rw [supd_other _ _ _ hj]

theorem backNode_children (st : Store) (v j : Nat) :
    ((backNode st v).1 j).children = (st j).children := by
  rw [backNode_fst]
  split_ifs
  · show (bdec st v j).children = _
    exact bdec_children st v j
  · exact bdec_children st v j

theorem backNode_name (st : Store) (v j : Nat) :
    ((backNode st v).1 j).name = (st j).name := by
  rw [backNode_fst]
  split_ifs
  · show (bdec st v j).name = _
    exact bdec_name st v j
  · exact bdec_name st v j

theorem backNode_trainable (st : Store) (v j : Nat) :
    ((backNode st v).1 j).trainable = (st j).trainable := by
  rw [backNode_fst]
  split_ifs
  · show (bdec st v j).trainable = _
    exact bdec_trainable st v j
  · exact bdec_trainable st v j

theorem backNode_edges (st : Store) (v j : Nat) :
    ((backNode st v).1 j).edges =
      (st j).edges - ((st v).children.count j + if j = v then (st v).children.length else 0) := by
  rw [backNode_fst]
  by_cases hcond : bfire st v = true ∧ j = v
  · rw [if_pos hcond]
    exact bdec_edges st v j
  · rw [if_neg hcond]
    exact bdec_edges st v j

theorem backNode_freed_iff (st : Store) (v j : Nat) :
    (((backNode st v).1 j).freed = true) ↔
      ((bfire st v = true ∧ j = v) ∨ (st j).freed = true) := by
  rw [backNode_fst]
  split_ifs with h
  · simp [h]
  · rw [bdec_freed]
    constructor
    · intro hf
      exact Or.inr hf
    · rintro (hc | hf)
      · exact absurd hc h
      · exact hf

theorem backNode_adj_none (st : Store) (v j : Nat) (htr : (st j).trainable = false)
    (ha : (st j).adj = none) : ((backNode st v).1 j).adj = none := by
  rw [backNode_fst]
  split_ifs
  · rfl
  · rw [bdec_adj_skip st v j htr]
    exact ha

theorem backNode_fired_iff (st : Store) (v : Nat) :
    ((backNode st v).2 = true) ↔
      ((st v).edges - ((st v).children.count v + (st v).children.length) = 0 ∧
        (st v).name = "none") := by
  rw [backNode_snd]
  show ((decide ((bdec st v v).edges = 0)) && ((bdec st v v).name == "none")) = true ↔ _
  rw [Bool.and_eq_true, decide_eq_true_eq, beq_iff_eq, bdec_edges, bdec_name, if_pos rfl]

/-! Piecewise description of one forward visit: the value work changes only
the val field, the edge release drops one unit per endpoint per edge. -/

theorem valW_fwdOps (th : ℚ → ℚ) (st : Store) (v j : Nat) :
    ∃ w, fwdOps th st v j = { st j with val := w } := by
  unfold fwdOps
  dsimp only
  rcases hty : (st v).ty <;> dsimp only <;>
    first
      | exact ⟨(st j).val, rfl⟩
      | (rw [supd_apply]
         split_ifs with hj
         · exact ⟨_, rfl⟩
         · exact ⟨(st j).val, rfl⟩)

theorem valW_fwdpre (th : ℚ → ℚ) (st : Store) (v j : Nat) :
    ∃ w, fwdOps th (supd (supd st v (fun nd =>
        if nd.val.isNone then { nd with val := some (List.replicate nd.shape.elements 0) }
        else nd)) v
        (fun nd => if nd.ty.isLeaf then { nd with val := some nd.initVal } else nd)) v j
      = { st j with val := w } := by
  obtain ⟨w, hw⟩ := valW_fwdOps th (supd (supd st v (fun nd =>
        if nd.val.isNone then { nd with val := some (List.replicate nd.shape.elements 0) }
        else nd)) v
        (fun nd => if nd.ty.isLeaf then { nd with val := some nd.initVal } else nd)) v j
  refine ⟨w, ?_⟩
  rw [hw, supd_apply, supd_apply]
  split_ifs <;> rfl

theorem fwdNode_apply (th : ℚ → ℚ) (st : Store) (v j : Nat) :
    ∃ w, fwdNode th st v j =
      subE ((st v).children.count j + if j = v then (st v).children.length else 0)
        { st j with val := w } := by
  obtain ⟨w, hw⟩ := valW_fwdpre th st v j
  obtain ⟨wv, hwv⟩ := valW_fwdpre th st v v
  refine ⟨w, ?_⟩
  show edgeDecAll (fwdOps th (supd (supd st v (fun nd =>
      if nd.val.isNone then { nd with val := some (List.replicate nd.shape.elements 0) }
      else nd)) v
      (fun nd => if nd.ty.isLeaf then { nd with val := some nd.initVal } else nd)) v) v
    ((fwdOps th (supd (supd st v (fun nd =>
      if nd.val.isNone then { nd with val := some (List.replicate nd.shape.elements 0) }
      else nd)) v
      (fun nd => if nd.ty.isLeaf then { nd with val := some nd.initVal } else nd)) v) v).children
    j = _
  rw [edgeDecAll_apply, hw, hwv]

/-- Pointwise field preservation of one forward visit. -/
theorem fwdNode_children (th : ℚ → ℚ) (st : Store) (v j : Nat) :
    (fwdNode th st v j).children = (st j).children := by
  obtain ⟨w, hw⟩ := fwdNode_apply th st v j
  rw [hw, subE_children]

theorem fwdNode_name (th : ℚ → ℚ) (st : Store) (v j : Nat) :
    (fwdNode th st v j).name = (st j).name := by
  obtain ⟨w, hw⟩ := fwdNode_apply th st v j
  rw [hw, subE_name]

theorem fwdNode_trainable (th : ℚ → ℚ) (st : Store) (v j : Nat) :
    (fwdNode th st v j).trainable = (st j).trainable := by
  obtain ⟨w, hw⟩ := fwdNode_apply th st v j
  rw [hw, subE_trainable]

theorem fwdNode_adj (th : ℚ → ℚ) (st : Store) (v j : Nat) :
    (fwdNode th st v j).adj = (st j).adj := by
  obtain ⟨w, hw⟩ := fwdNode_apply th st v j
  rw [hw, subE_adj]

theorem fwdNode_edges (th : ℚ → ℚ) (st : Store) (v j : Nat) :
    (fwdNode th st v j).edges =
      (st j).edges - ((st v).children.count j + if j = v then (st v).children.length else 0) := by
  obtain ⟨w, hw⟩ := fwdNode_apply th st v j
  rw [hw, subE_edges]

/-- Edge accounting of a whole pass, for any per-node step that preserves the
children and releases one edge unit per endpoint per edge of the visited
node: over a node list the count drops by the number of edges into the slot
from visited parents plus the child count per visit of the slot itself. -/
theorem fold_step_edges (F : Store → Nat → Store)
    (hC : ∀ st u j, (F st u j).children = (st j).children)
    (hE : ∀ st u j, (F st u j).edges =
      (st j).edges - ((st u).children.count j + if j = u then (st u).children.length else 0)) :
    ∀ (ns : List Nat) (st : Store) (j : Nat),
      ((ns.foldl F st) j).children = (st j).children ∧
      ((ns.foldl F st) j).edges =
        (st j).edges - ((ns.map (fun u => (st u).children.count j)).sum
          + ns.count j * (st j).children.length) := by
  intro ns
  induction ns with
  | nil =>
    intro st j
    refine ⟨rfl, ?_⟩
    simp
  | cons u t ih =>
    intro st j
    obtain ⟨ihC, ihE⟩ := ih (F st u) j
    have hc1 : ∀ x, ((F st u) x).children = (st x).children := hC st u
    constructor
    · rw [show (u :: t).foldl F st = t.foldl F (F st u) from rfl, ihC, hc1]
    · rw [show (u :: t).foldl F st = t.foldl F (F st u) from rfl, ihE, hE]
      rw [List.map_congr_left (fun x hx => by rw [hc1 x]), hc1 j]
      rw [Nat.sub_sub]
      rw [List.map_cons, List.sum_cons, List.count_cons]
      congr 1
      by_cases hj : j = u
      · subst hj
        simp only [if_pos rfl, beq_self_eq_true, if_true]
        ring
      · rw [if_neg hj, if_neg (by simp [Ne.symm hj])]
        ring

/-! The backward traversal as a fold, and the bookkeeping of the freed
list. -/

theorem backLoop_fst (ns : List Nat) :
    ∀ st, (backLoop ns st).1 = ns.foldl (fun s u => (backNode s u).1) st := by
  induction ns with
  | nil => intro st; rfl
  | cons u t ih =>
    intro st
    show (backLoop t (backNode st u).1).1 = _
    rw [ih]
    rfl

theorem backLoop_freed_subset (ns : List Nat) :
    ∀ st v, v ∈ (backLoop ns st).2 → v ∈ ns := by
  induction ns with
  | nil =>
    intro st v hv
    exact absurd hv (by simp [backLoop])
  | cons u t ih =>
    intro st v hv
    have hv2 : v ∈ (if (backNode st u).2 then u :: (backLoop t (backNode st u).1).2
        else (backLoop t (backNode st u).1).2) := hv
    split_ifs at hv2 with hfire
    · rcases List.mem_cons.mp hv2 with rfl | hmem
      · exact List.mem_cons_self _ _
      · exact List.mem_cons_of_mem _ (ih _ v hmem)
    · exact List.mem_cons_of_mem _ (ih _ v hv2)

theorem backLoop_append (a : List Nat) :
    ∀ (b : List Nat) (st : Store),
      backLoop (a ++ b) st =
        ((backLoop b (backLoop a st).1).1,
         (backLoop a st).2 ++ (backLoop b (backLoop a st).1).2) := by
  induction a with
  | nil =>
    intro b st
    exact Prod.ext rfl (by simp [backLoop])
  | cons u t ih =>
    intro b st
    have h1 : backLoop ((u :: t) ++ b) st =
        ((backLoop (t ++ b) (backNode st u).1).1,
         if (backNode st u).2 then u :: (backLoop (t ++ b) (backNode st u).1).2
         else (backLoop (t ++ b) (backNode st u).1).2) := rfl
    have h2 : backLoop (u :: t) st =
        ((backLoop t (backNode st u).1).1,
         if (backNode st u).2 then u :: (backLoop t (backNode st u).1).2
         else (backLoop t (backNode st u).1).2) := rfl
    rw [h1, h2, ih]
    cases hfire : (backNode st u).2 <;> simp

/-! Frames of the pre-loop gradient initialization. -/

theorem paramsZero_apply (ps : List (String × Nat)) :
    ∀ (st : Store) (j : Nat), ∃ a, paramsZero ps st j = { st j with adj := a } := by
  induction ps with
  | nil => exact fun st j => ⟨(st j).adj, rfl⟩
  | cons p t ih =>
    intro st j
    obtain ⟨a, ha⟩ := ih (supd st p.2 (fun nd =>
      { nd with adj := some (List.replicate nd.shape.elements 0) })) j
    refine ⟨a, ?_⟩
    show paramsZero t (supd st p.2 (fun nd =>
      { nd with adj := some (List.replicate nd.shape.elements 0) })) j = _
    rw [ha, supd_apply]
    split_ifs <;> rfl

theorem paramsZero_skip (ps : List (String × Nat)) :
    ∀ (st : Store) (j : Nat), (∀ q ∈ ps, q.2 ≠ j) → paramsZero ps st j = st j := by
  induction ps with
  | nil => exact fun st j _ => rfl
  | cons p t ih =>
    intro st j hq
    show paramsZero t (supd st p.2 (fun nd =>
      { nd with adj := some (List.replicate nd.shape.elements 0) })) j = _
    rw [ih _ j (fun q hq2 => hq q (List.mem_cons_of_mem _ hq2)),
        supd_other _ _ _ (fun hh => hq p (List.mem_cons_self _ _) hh.symm)]

theorem seedTops_apply (ts : List Nat) :
    ∀ (st : Store) (j : Nat), ∃ a, seedTops ts st j = { st j with adj := a } := by
  induction ts with
  | nil => exact fun st j => ⟨(st j).adj, rfl⟩
  | cons u t ih =>
    intro st j
    obtain ⟨a, ha⟩ := ih (supd st u (fun nd =>
      if nd.adj.isNone then { nd with adj := some (List.replicate nd.shape.elements 1) }
      else nd)) j
    refine ⟨a, ?_⟩
    show seedTops t (supd st u (fun nd =>
      if nd.adj.isNone then { nd with adj := some (List.replicate nd.shape.elements 1) }
      else nd)) j = _
    rw [ha, supd_apply]
    split_ifs <;> rfl

theorem seedTops_skip (ts : List Nat) :
    ∀ (st : Store) (j : Nat), j ∉ ts → seedTops ts st j = st j := by
  induction ts with
  | nil => exact fun st j _ => rfl
  | cons u t ih =>
    intro st j hj
    show seedTops t (supd st u (fun nd =>
      if nd.adj.isNone then { nd with adj := some (List.replicate nd.shape.elements 1) }
      else nd)) j = _
    rw [ih _ j (fun hh => hj (List.mem_cons_of_mem _ hh)),
        supd_other _ _ _ (fun hh => hj (by rw [hh]; exact List.mem_cons_self _ _))]

/-- Inversion of a successful backward call: the well-formedness check
passed and the result is the traversal of the reverse node list over the
seeded store. -/
theorem backward_ok_inv {g g2 : Graph} {fl : List Nat} (h : g.backward = .ok (g2, fl)) :
    g2 = { g with store := (backLoop g.nodes.reverse
        (seedTops g.topNodes (paramsZero g.params g.store))).1 } ∧
      fl = (backLoop g.nodes.reverse
        (seedTops g.topNodes (paramsZero g.params g.store))).2 := by
  unfold Graph.backward at h
  by_cases hlen : 1 < g.topNodes.length
  · rw [if_pos hlen] at h
    exact Except.noConfusion h
  · rw [if_neg hlen] at h
    have h2 := Except.ok.inj h
    exact ⟨(congrArg Prod.fst h2).symm, (congrArg Prod.snd h2).symm⟩

/-- Claim C5: in a built graph every edge counter equals twice the child
count plus twice the parent multiplicity (each edge contributed two units to
both endpoints at add, starting from zero); one forward pass releases one
unit per endpoint per edge, leaving child count plus parent count; the
backward pass releases the remaining unit, leaving every counter at zero. -/
theorem edge_lifecycle {g : Graph} (hb : Built g) (th : ℚ → ℚ) {g2 : Graph}
    {fl : List Nat} (h : g.backprop th = .ok (g2, fl)) (v : Nat) (hv : v ∈ g.nodes) :
    (g.store v).edges = 2 * (g.store v).children.length + 2 * parentCount g v ∧
    ((g.forwardAll th).store v).edges = (g.store v).children.length + parentCount g v ∧
    (g2.store v).edges = 0 := by
  have hg := built_inv hb
  have hnodup : g.nodes.Nodup := hg.sorted_mem.imp (fun hlt => Nat.ne_of_lt hlt)
  have hcount1 : g.nodes.count v = 1 := List.count_eq_one_of_mem hnodup hv
  have hE0 := hg.edges_eq v hv
  have hfold := fold_step_edges (fwdNode th) (fun st u j => fwdNode_children th st u j)
    (fun st u j => fwdNode_edges th st u j)
  have hfC : ∀ j, ((g.forwardAll th).store j).children = (g.store j).children :=
    fun j => (hfold g.nodes g.store j).1
  have hPdef : (g.nodes.map (fun u => (g.store u).children.count v)).sum = parentCount g v := rfl
  have hfwdE : ((g.forwardAll th).store v).edges
      = (g.store v).children.length + parentCount g v := by
    show ((g.nodes.foldl (fwdNode th) g.store) v).edges = _
    rw [(hfold g.nodes g.store v).2, hPdef, hcount1, hE0]
    omega
  obtain ⟨hg2, _⟩ := backward_ok_inv h
  have hBadj : ∀ j, ∃ a, seedTops (g.forwardAll th).topNodes
      (paramsZero (g.forwardAll th).params (g.forwardAll th).store) j
      = { (g.forwardAll th).store j with adj := a } := by
    intro j
    obtain ⟨a1, h1⟩ := seedTops_apply (g.forwardAll th).topNodes
      (paramsZero (g.forwardAll th).params (g.forwardAll th).store) j
    obtain ⟨a2, h2⟩ := paramsZero_apply (g.forwardAll th).params (g.forwardAll th).store j
    refine ⟨a1, ?_⟩
    rw [h1, h2]
  have hBchild : ∀ j, (seedTops (g.forwardAll th).topNodes
      (paramsZero (g.forwardAll th).params (g.forwardAll th).store) j).children
      = (g.store j).children := by
    intro j
    obtain ⟨a, ha⟩ := hBadj j
    rw [ha]
    exact hfC j
  have hBedges : (seedTops (g.forwardAll th).topNodes
      (paramsZero (g.forwardAll th).params (g.forwardAll th).store) v).edges
      = ((g.forwardAll th).store v).edges := by
    obtain ⟨a, ha⟩ := hBadj v
    rw [ha]
  have hbfold := fold_step_edges (fun s u => (backNode s u).1)
    (fun st u j => backNode_children st u j) (fun st u j => backNode_edges st u j)
  refine ⟨hE0, hfwdE, ?_⟩
  rw [hg2]
  show ((backLoop (g.forwardAll th).nodes.reverse
      (seedTops (g.forwardAll th).topNodes
        (paramsZero (g.forwardAll th).params (g.forwardAll th).store))).1 v).edges = 0
  rw [backLoop_fst]
  rw [(hbfold (g.forwardAll th).nodes.reverse
      (seedTops (g.forwardAll th).topNodes
        (paramsZero (g.forwardAll th).params (g.forwardAll th).store)) v).2]
  rw [List.map_congr_left (fun x hx => by rw [hBchild x]), hBchild v, hBedges]
  show ((g.forwardAll th).store v).edges -
      ((List.map (fun u => (g.store u).children.count v) g.nodes.reverse).sum
        + g.nodes.reverse.count v * (g.store v).children.length) = 0
  rw [List.map_reverse, List.sum_reverse, List.count_reverse, hPdef, hcount1, hfwdE]
  omega

/-- Witness for claim C5 at the concrete verification graph: after one full
backprop generation the edge counter of the parameter slot is zero. -/
theorem edge_lifecycle_witness : ((G5c (fun q => q) 0).store 0).edges = 0 := by
  have h0 : Built (G0 0) := Built.paramStep "w" ⟨1, 1, 1, 1⟩ [0] Built.empty (c1_step0 0)
  have h1 : Built (G1 0) := by
    have h := @Built.unary (G0 0) 0 .square h0 (Or.inl rfl) (by decide)
    rw [c1_step1] at h
    exact h
  have h2 : Built (G2 0) := by
    have h := @Built.unary (G1 0) 0 .neg h1 (Or.inr rfl) (by decide)
    rw [c1_step2] at h
    exact h
  have h3 : Built (Gc 0) := by
    have h := @Built.tanh (G2 0) [1, 2] h2 (by simp) (by decide)
    rw [c1_step3, c1_flatten] at h
    exact h
  have hbp : (Gc 0).backprop (fun q => q) = .ok (G5c (fun q => q) 0, [3, 2, 1]) := by
    have h := c1_backprop (fun q => q) 0
    rw [c1g_eq] at h
    exact h
  exact (edge_lifecycle h3 (fun q => q) hbp 0 (by decide)).2.2

/-- Claim C10 (amended): backward ops are paired with the children by
position and the op of a child runs only when that child is trainable, and
set_zero_adjoint touches only trainable children, so backward never writes
the gradient buffer of a non-trainable node other than a seeded top node;
the unamended statement fails for a non-trainable top node, whose buffer is
seeded by init_dependent without consulting trainability. -/
theorem backward_skips_nontrainable_nontop {g : Graph} (hb : Built g) {g2 : Graph}
    {fl : List Nat} (h : g.backward = .ok (g2, fl)) (v : Nat) (hv : v ∈ g.nodes)
    (htr : (g.store v).trainable = false) (htop : v ∉ g.topNodes) :
    (g2.store v).adj = none := by
  have hg := built_inv hb
  obtain ⟨hg2, _⟩ := backward_ok_inv h
  have hparam : ∀ q ∈ g.params, q.2 ≠ v := by
    intro q hq hqv
    have h2 := (hg.params_node q hq).2.1
    rw [hqv, htr] at h2
    exact Bool.noConfusion h2
  have hB : seedTops g.topNodes (paramsZero g.params g.store) v = g.store v := by
    rw [seedTops_skip _ _ _ htop, paramsZero_skip g.params g.store v hparam]
  have hInv : ∀ (ns : List Nat) (st : Store), (st v).trainable = false → (st v).adj = none →
      ((ns.foldl (fun s u => (backNode s u).1) st) v).adj = none := by
    intro ns
    induction ns with
    | nil => exact fun st _ ha => ha
    | cons u t ih =>
      intro st htr2 ha
      exact ih _ (by rw [backNode_trainable]; exact htr2) (backNode_adj_none st u v htr2 ha)
  rw [hg2]
  show ((backLoop g.nodes.reverse
      (seedTops g.topNodes (paramsZero g.params g.store))).1 v).adj = none
  rw [backLoop_fst]
  exact hInv _ _ (by rw [hB]; exact htr) (by rw [hB]; exact hg.adj_none v hv)

/-- The backward pass over the non-trainable chain gK2, computed. -/
theorem gK2_backward : gK2.backward = .ok (gK2r, []) := by
  show (if 1 < gK2.topNodes.length then Except.error wfMsg
    else .ok ({ gK2 with store :=
        (backLoop gK2.nodes.reverse
          (seedTops gK2.topNodes (paramsZero gK2.params gK2.store))).1 },
      (backLoop gK2.nodes.reverse
        (seedTops gK2.topNodes (paramsZero gK2.params gK2.store))).2))
    = .ok (gK2r, [])
  rw [if_neg (by decide)]
  refine congrArg Except.ok (Prod.ext ?_ rfl)
  refine Graph.ext rfl rfl rfl rfl rfl rfl rfl rfl rfl ?_
  funext j
  rcases j with _ | _ | j <;> rfl

/-- Counterexample to the unamended claim C10: in the non-trainable chain
the top node square is not trainable, yet after backward its gradient
buffer holds the seeded ones vector. -/
theorem backward_writes_nontrainable_top :
    (gK2.store 1).trainable = false ∧ gK2.topNodes = [1] ∧
    gK2.backward = .ok (gK2r, []) ∧ (gK2r.store 1).adj = some [1] :=
  ⟨rfl, rfl, gK2_backward, rfl⟩

/-- Witness for the amended claim C10: in the same chain the non-top
non-trainable constant keeps an empty gradient buffer through backward. -/
theorem backward_skips_nontrainable_nontop_witness : (gK2r.store 0).adj = none := by
  have hk1 : Built gK1 := Built.leaf .constant ⟨1, 1, 1, 1⟩ [5] false rfl Built.empty
  have hb : Built gK2 := @Built.unary gK1 0 .square hk1 (Or.inl rfl) (by decide)
  exact backward_skips_nontrainable_nontop hb gK2_backward 0 (by decide) (by decide) (by decide)

theorem back_fold_name (ns : List Nat) :
    ∀ (st : Store) (j : Nat),
      ((ns.foldl (fun s u => (backNode s u).1) st) j).name = (st j).name := by
  induction ns with
  | nil => exact fun st j => rfl
  | cons u t ih =>
    intro st j
    rw [List.foldl_cons, ih, backNode_name]

/-- Through the whole backward traversal, a node carries the freed flag
exactly when it is recorded in the freed list or carried the flag already:
the free of the loop body is the only step that sets it. -/
theorem backLoop_freed_iff (ns : List Nat) :
    ∀ (st : Store) (j : Nat),
      (((backLoop ns st).1 j).freed = true ↔
        (j ∈ (backLoop ns st).2 ∨ (st j).freed = true)) := by
  induction ns with
  | nil =>
    intro st j
    simp [backLoop]
  | cons u t ih =>
    intro st j
    have hfst : (backLoop (u :: t) st).1 = (backLoop t (backNode st u).1).1 := rfl
    have hsnd : (backLoop (u :: t) st).2 =
        (if (backNode st u).2 then u :: (backLoop t (backNode st u).1).2
         else (backLoop t (backNode st u).1).2) := rfl
    rw [hfst, hsnd, ih, backNode_freed_iff, backNode_snd]
    cases hb : bfire st u <;> simp [List.mem_cons] <;> try tauto

/-- Claim C6: during the backward pass a node is freed exactly when, at the
moment it is visited and its own edge release is accounted, its edge count
has reached zero and its name is the sentinel none; a node carrying a
user-visible name is never freed; and this free is the only step of the
pass that marks storage as released: the freed flags of the final store are
exactly the recorded free events. -/
theorem backward_free_condition (st : Store) (l1 l2 : List Nat) (v : Nat)
    (h1 : v ∉ l1) (h2 : v ∉ l2) :
    (v ∈ (backLoop (l1 ++ v :: l2) st).2 ↔
      ((l1.foldl (fun s u => (backNode s u).1) st v).edges
          - ((st v).children.count v + (st v).children.length) = 0 ∧
        (st v).name = "none")) ∧
    (∀ j, (((backLoop (l1 ++ v :: l2) st).1 j).freed = true ↔
      (j ∈ (backLoop (l1 ++ v :: l2) st).2 ∨ (st j).freed = true))) := by
  constructor
  · have hA1 : (backLoop l1 st).1 = l1.foldl (fun s u => (backNode s u).1) st :=
      backLoop_fst l1 st
    have hnotA : v ∉ (backLoop l1 st).2 := fun hm => h1 (backLoop_freed_subset l1 st v hm)
    have hsnd : (backLoop (v :: l2) (backLoop l1 st).1).2 =
        (if (backNode (backLoop l1 st).1 v).2 then
          v :: (backLoop l2 (backNode (backLoop l1 st).1 v).1).2
         else (backLoop l2 (backNode (backLoop l1 st).1 v).1).2) := rfl
    have hnotB : v ∉ (backLoop l2 (backNode (backLoop l1 st).1 v).1).2 :=
      fun hm => h2 (backLoop_freed_subset l2 _ v hm)
    have hch : ((backLoop l1 st).1 v).children = (st v).children := by
      rw [hA1]
      exact (fold_step_edges (fun s u => (backNode s u).1)
        (fun st u j => backNode_children st u j) (fun st u j => backNode_edges st u j)
        l1 st v).1
    have hnm : ((backLoop l1 st).1 v).name = (st v).name := by
      rw [hA1]
      exact back_fold_name l1 st v
    have hfiff : ((backNode (backLoop l1 st).1 v).2 = true ↔
        ((l1.foldl (fun s u => (backNode s u).1) st v).edges
            - ((st v).children.count v + (st v).children.length) = 0 ∧
          (st v).name = "none")) := by
      rw [backNode_fired_iff, hch, hnm, hA1]
    rw [backLoop_append, List.mem_append]
    constructor
    · rintro (hmA | hmB)
      · exact absurd hmA hnotA
      · rw [hsnd] at hmB
        split_ifs at hmB with hfire
        · rcases List.mem_cons.mp hmB with _ | hmB2
          · exact hfiff.mp hfire
          · exact absurd hmB2 hnotB
        · exact absurd hmB hnotB
    · intro hcond
      refine Or.inr ?_
      rw [hsnd, if_pos (hfiff.mpr hcond)]
      exact List.mem_cons_self _ _
  · exact fun j => backLoop_freed_iff (l1 ++ v :: l2) st j

/-- Witness for claim C6 in the verification pipeline: at its visit the top
tanh node of the seeded store has exhausted its edges and carries no
user-visible name, so the pass frees it. -/
theorem backward_free_condition_witness :
    3 ∈ (backLoop ([] ++ 3 :: [2, 1, 0]) (SBif (fun q => q) 0)).2 :=
  ((backward_free_condition (SBif (fun q => q) 0) [] [2, 1, 0] 3 (by decide)
    (by decide)).1).mpr ⟨by decide, by decide⟩

/-- Working form of a fresh parameter creation: the new node sits on the
fresh slot with the requested shape and initializer, every old slot and the
naming tables are otherwise untouched. -/
theorem param_create_facts {g g1 : Graph} {p : Nat} {nm : String} {sh : Shape} {iv : List ℚ}
    (hg : Inv g) (hq : klookup g.params nm = none) (hn : g.get nm = none)
    (h : g.param nm sh iv = .ok (g1, p)) :
    Inv g1 ∧ g1.nodes = g.nodes ++ [p] ∧
    (g1.store p).shape = sh ∧ (g1.store p).initVal = iv ∧
    (∀ v ∈ g.nodes, g1.store v = g.store v) ∧
    g1.params = (nm, p) :: g.params ∧ g1.named = g.named := by
  have hInv1 := param_inv hg h
  rw [param_create_spec hg nm sh iv hq hn] at h
  have h2 := Except.ok.inj h
  have hp : g.next = p := congrArg Prod.snd h2
  have hg1 : g1 = ⟨g.count + 1, g.nodes ++ [g.next],
      tapesInsert g.tapes 0 g.next,
      (g.next, 0) :: g.tapeMap,
      g.named, topInsert g.topNodes g.next, (nm, g.next) :: g.params,
      (leafHash g.next, g.next) :: g.hashMap,
      g.next + 1,
      supd (supd (supd g.store g.next
        (fun _ => { ty := .paramT, shape := sh, initVal := iv, trainable := true,
                    hashv := leafHash g.next }))
        g.next (fun nd => { nd with id := g.count }))
        g.next (fun nd => { nd with name := nm })⟩ := (congrArg Prod.fst h2).symm
  subst hp
  refine ⟨hInv1, ?_, ?_, ?_, ?_, ?_, ?_⟩
  · rw [hg1]
  · rw [hg1]
    show (supd (supd (supd g.store g.next
        (fun _ => { ty := .paramT, shape := sh, initVal := iv, trainable := true,
                    hashv := leafHash g.next }))
        g.next (fun nd => { nd with id := g.count }))
        g.next (fun nd => { nd with name := nm }) g.next).shape = sh
    rw [supd_self, supd_self, supd_self]
  · rw [hg1]
    show (supd (supd (supd g.store g.next
        (fun _ => { ty := .paramT, shape := sh, initVal := iv, trainable := true,
                    hashv := leafHash g.next }))
        g.next (fun nd => { nd with id := g.count }))
        g.next (fun nd => { nd with name := nm }) g.next).initVal = iv
    rw [supd_self, supd_self, supd_self]
  · intro v hv
    have hvne : v ≠ g.next := Nat.ne_of_lt (hg.mem_lt_next v hv)
    rw [hg1]
    show supd (supd (supd g.store g.next
        (fun _ => { ty := .paramT, shape := sh, initVal := iv, trainable := true,
                    hashv := leafHash g.next }))
        g.next (fun nd => { nd with id := g.count }))
        g.next (fun nd => { nd with name := nm }) v = g.store v
    rw [supd_other _ _ _ hvne, supd_other _ _ _ hvne, supd_other _ _ _ hvne]
  · rw [hg1]
  · rw [hg1]

/-- Loading a list of arrays whose names are fresh and distinct always
succeeds, creates one parameter per array carrying the folded shape and the
array data as initializer, and leaves the existing slots and bindings
alone. -/
theorem load_fresh :
    ∀ (file : List (String × NpzArr)) (h0 : Graph), Inv h0 →
      (∀ e ∈ file, klookup h0.params e.1 = none ∧ klookup h0.named e.1 = none) →
      (file.map Prod.fst).Nodup →
      ∃ gE, h0.load file = .ok gE ∧
        (∀ v ∈ h0.nodes, gE.store v = h0.store v) ∧
        (∀ nm, nm ∉ file.map Prod.fst → klookup gE.params nm = klookup h0.params nm) ∧
        (∀ e ∈ file, ∃ p, klookup gE.params e.1 = some p ∧
          (gE.store p).shape =
            (if e.2.dims.length = 2 then ⟨e.2.dims.getD 0 1, e.2.dims.getD 1 1, 1, 1⟩
             else if e.2.dims.length = 1 then ⟨1, e.2.dims.getD 0 1, 1, 1⟩
             else ⟨1, 1, 1, 1⟩) ∧
          (gE.store p).initVal = e.2.data) := by
  intro file
  induction file with
  | nil =>
    intro h0 hInv hfresh hnd
    exact ⟨h0, rfl, fun v _ => rfl, fun nm _ => rfl, fun e he => absurd he (by simp)⟩
  | cons e rest ih =>
    obtain ⟨nm, arr⟩ := e
    intro h0 hInv hfresh hnd
    obtain ⟨hp_none, hn_none⟩ := hfresh (nm, arr) (List.mem_cons_self _ _)
    rw [List.map_cons, List.nodup_cons] at hnd
    obtain ⟨hnm, hnd2⟩ := hnd
    have hget : h0.get nm = none := by
      unfold Graph.get
      rw [hp_none]
      exact hn_none
    rcases hpar : h0.param nm
        (if arr.dims.length = 2 then ⟨arr.dims.getD 0 1, arr.dims.getD 1 1, 1, 1⟩
         else if arr.dims.length = 1 then ⟨1, arr.dims.getD 0 1, 1, 1⟩
         else ⟨1, 1, 1, 1⟩) arr.data with err | pr
    · rw [param_create_spec hInv nm _ arr.data hp_none hget] at hpar
      exact Except.noConfusion hpar
    · obtain ⟨g1, p⟩ := pr
      obtain ⟨hInv1, hnodes1, hshape1, hinit1, hold1, hparams1, hnamed1⟩ :=
        param_create_facts hInv hp_none hget hpar
      have hfresh2 : ∀ e2 ∈ rest, klookup g1.params e2.1 = none ∧
          klookup g1.named e2.1 = none := by
        intro e2 he2
        have hne : nm ≠ e2.1 := fun hh => hnm (by
          rw [hh]
          exact List.mem_map.mpr ⟨e2, he2, rfl⟩)
        constructor
        · rw [hparams1, klookup_cons_ne _ _ hne]
          exact (hfresh e2 (List.mem_cons_of_mem _ he2)).1
        · rw [hnamed1]
          exact (hfresh e2 (List.mem_cons_of_mem _ he2)).2
      obtain ⟨gE, hloadE, hstoreP, hparamP, hfacts2⟩ := ih g1 hInv1 hfresh2 hnd2
      have hpmem : p ∈ g1.nodes := by
        rw [hnodes1]
        simp
      have hload : h0.load ((nm, arr) :: rest) = .ok gE := by
        show (match h0.param nm
            (if arr.dims.length = 2 then ⟨arr.dims.getD 0 1, arr.dims.getD 1 1, 1, 1⟩
             else if arr.dims.length = 1 then ⟨1, arr.dims.getD 0 1, 1, 1⟩
             else ⟨1, 1, 1, 1⟩) arr.data with
          | .ok (g2, _) => g2.load rest
          | .error e => .error e) = .ok gE
        rw [hpar]
        exact hloadE
      refine ⟨gE, hload, ?_, ?_, ?_⟩
      · intro v hv
        rw [hstoreP v (by rw [hnodes1]; exact List.mem_append_left _ hv), hold1 v hv]
      · intro nm2 hnm2
        rw [List.map_cons] at hnm2
        have hne : nm ≠ nm2 := fun hh => hnm2 (hh ▸ List.mem_cons_self _ _)
        rw [hparamP nm2 (fun hh => hnm2 (List.mem_cons_of_mem _ hh)), hparams1,
            klookup_cons_ne _ _ hne]
      · intro e2 he2
        rcases List.mem_cons.mp he2 with he2 | he2
        · refine ⟨p, ?_, ?_, ?_⟩
          · rw [he2]
            show klookup gE.params nm = some p
            rw [hparamP nm hnm, hparams1, klookup_cons, if_pos rfl]
          · rw [he2]
            show (gE.store p).shape = _
            rw [hstoreP p hpmem, hshape1]
          · rw [he2]
            show (gE.store p).initVal = _
            rw [hstoreP p hpmem, hinit1]
        · exact hfacts2 e2 he2

/-- The names of a saved file are exactly the parameter names. -/
theorem save_names (g : Graph) : g.save.map Prod.fst = g.params.map Prod.fst := by
  unfold Graph.save
  rw [List.map_map]
  refine List.map_congr_left (fun q hq => ?_)
  simp only [Function.comp]
  split_ifs <;> rfl

/-- Claim C7 (amended): saving and loading into a fresh graph round-trips
every parameter whose shape has trivial third and fourth extents: the load
always succeeds, binds every saved name, and reproduces the shape under the
folding convention ((1, N) as a one-dimensional array, anything else as the
leading two extents) together with the exact saved value buffer as the new
initializer.  The unamended statement fails for shapes with a non-trivial
third extent (see the counterexample). -/
theorem save_load_roundtrip {g : Graph} (hg : Inv g) :
    ∃ g2, emptyGraph.load g.save = .ok g2 ∧
      ∀ q ∈ g.params, (g.store q.2).shape.d2 = 1 → (g.store q.2).shape.d3 = 1 →
        ∃ p, klookup g2.params q.1 = some p ∧
          (g2.store p).shape = (g.store q.2).shape ∧
          (g2.store p).initVal = (g.store q.2).val.getD [] := by
  obtain ⟨gE, hload, _, _, hfacts⟩ := load_fresh g.save emptyGraph inv_empty
    (fun e _ => ⟨rfl, rfl⟩) (by rw [save_names]; exact hg.params_keys)
  refine ⟨gE, hload, ?_⟩
  intro q hq hd2 hd3
  by_cases hd0 : (g.store q.2).shape.d0 = 1
  · have he : (q.1, (⟨[(g.store q.2).shape.d1],
        (g.store q.2).val.getD []⟩ : NpzArr)) ∈ g.save := by
      unfold Graph.save
      refine List.mem_map.mpr ⟨q, hq, ?_⟩
      rw [if_pos hd0]
    obtain ⟨p, hbind, hsh, hiv⟩ := hfacts _ he
    refine ⟨p, hbind, ?_, hiv⟩
    rw [hsh]
    rw [if_neg (by simp), if_pos (by simp)]
    show (⟨1, (g.store q.2).shape.d1, 1, 1⟩ : Shape) = _
    have hS : (g.store q.2).shape = ⟨(g.store q.2).shape.d0, (g.store q.2).shape.d1,
        (g.store q.2).shape.d2, (g.store q.2).shape.d3⟩ := rfl
    conv_rhs => rw [hS]
    rw [hd0, hd2, hd3]
  · have he : (q.1, (⟨[(g.store q.2).shape.d0, (g.store q.2).shape.d1],
        (g.store q.2).val.getD []⟩ : NpzArr)) ∈ g.save := by
      unfold Graph.save
      refine List.mem_map.mpr ⟨q, hq, ?_⟩
      rw [if_neg hd0]
    obtain ⟨p, hbind, hsh, hiv⟩ := hfacts _ he
    refine ⟨p, hbind, ?_, hiv⟩
    rw [hsh]
    rw [if_pos (by simp)]
    show (⟨(g.store q.2).shape.d0, (g.store q.2).shape.d1, 1, 1⟩ : Shape) = _
    have hS : (g.store q.2).shape = ⟨(g.store q.2).shape.d0, (g.store q.2).shape.d1,
        (g.store q.2).shape.d2, (g.store q.2).shape.d3⟩ := rfl
    conv_rhs => rw [hS]
    rw [hd2, hd3]

/-- Witness for the amended claim C7 at the concrete one-parameter graph. -/
theorem save_load_roundtrip_witness :
    ∃ g2, emptyGraph.load (G0 0).save = .ok g2 ∧
      ∀ q ∈ (G0 0).params,
        ((G0 0).store q.2).shape.d2 = 1 → ((G0 0).store q.2).shape.d3 = 1 →
        ∃ p, klookup g2.params q.1 = some p ∧
          (g2.store p).shape = ((G0 0).store q.2).shape ∧
          (g2.store p).initVal = ((G0 0).store q.2).val.getD [] :=
  save_load_roundtrip (param_inv inv_empty (c1_step0 0))

/-- Counterexample to the unamended claim C7: a parameter of shape
(1, 2, 3, 1) is saved as a one-dimensional array of length 2 (the file
convention keeps only the first two extents), and loading maps that array
back to shape (1, 2, 1, 1): the round trip loses the third extent. -/
theorem save_load_shape_counterexample :
    (g74.store 0).shape = ⟨1, 2, 3, 1⟩ ∧
    g74.save = [("w", ⟨[2], []⟩)] ∧
    ∃ g2, emptyGraph.load g74.save = .ok g2 ∧ klookup g2.params "w" = some 0 ∧
      (g2.store 0).shape = ⟨1, 2, 1, 1⟩ ∧ (g2.store 0).shape ≠ (g74.store 0).shape :=
  ⟨rfl, rfl, _, rfl, rfl, rfl, by decide⟩

end Marian